import Mathlib

/-! # SSTable iterator and MVCC comparator of `pkg/storage/engine/sst_iterator.go`

A shallow embedding of `cockroachComparer.Compare` and of the `sstIterator`
cursor (`Seek`, `Valid`, `Next`, `NextKey`, `UnsafeKey`, `UnsafeValue`,
`Close`).  Go byte slices are lists of bytes, the mutable receiver
`*sstIterator` is an explicit state record, a Go nil-pointer panic is `none`.

The functions of `enginepb` and `roachpb` that the file calls and the constant
`BatchTypeValue` are declared outside the sources: they are the fields of
`Env`.  General theorems are stated for an arbitrary `Env`; evaluations on
concrete tables take the instance `env0`, the MVCC key layout.
-/

namespace engine

/-- One byte. -/
abbrev Byte := Fin 256

/-- A Go byte slice `[]byte`, seen as its contents (a nil slice is the empty list). -/
abbrev Bytes := List Byte

/-- Go standard library `bytes.Compare`: lexicographic comparison, result in -1, 0, 1;
a proper prefix is smaller. -/
def bytesCompare : Bytes → Bytes → Int
  | [], [] => 0
  | [], _ :: _ => -1
  | _ :: _, [] => 1
  | x :: xs, y :: ys =>
    if x < y then -1 else if y < x then 1 else bytesCompare xs ys

/-- Go standard library `bytes.Equal`. -/
def bytesEqual (a b : Bytes) : Bool := decide (a = b)

/-- Go standard library `binary.LittleEndian.Uint64` on the first eight bytes of a slice. -/
def littleEndianUint64 (b : Bytes) : Nat :=
  (b.take 8).foldr (fun x acc => x.val + 256 * acc) 0

/-- Errors of the iterator.  `external` stands for an error value produced by a
collaborator (cursor or table close, key decoder, payload verification). -/
inductive Error where
  /-- An error produced outside this file. -/
  | external (msg : String)
  /-- Line 129: `errors.Errorf("invalid rocksdb InternalKey: %x", rocksdbInternalKey)`. -/
  | invalidInternalKey (raw : Bytes)
  /-- Line 134: `errors.Errorf("value type not supported: %d", valueType)`. -/
  | valueTypeNotSupported (valueType : Nat)
  /-- Line 145: `errors.Wrapf(err, "decoding key: %s", key)`. -/
  | decodingKey (cause : Error) (key : Bytes)
  /-- The result of `errors.Wrap(err, context)` for a non-nil `err`. -/
  | wrap (cause : Error) (context : String)
  deriving DecidableEq, Repr

/-- Library function `errors.Wrap`: nil stays nil, an error gets the context attached. -/
def errorsWrap (err : Option Error) (context : String) : Option Error :=
  match err with
  | none => none
  | some e => some (Error.wrap e context)

/-- Modelled from the spec: `hlc.Timestamp`, whose declaration is not among the
sources; the spec gives it as the pair (walltime, logical). -/
structure Timestamp where
  WallTime : Int
  Logical : Int
  deriving DecidableEq, Repr

/-- Modelled from the spec: `MVCCKey`, whose declaration is not among the
sources; `Next` assigns its two fields `Key` and `Timestamp`. -/
structure MVCCKey where
  Key : Bytes
  Timestamp : Timestamp
  deriving DecidableEq, Repr

/-- What `sst_iterator.go` uses and the sources do not define: the key codec of
`enginepb` (`SplitMVCCKey`, `DecodeKey`), `EncodeKey`, the payload check
`roachpb.Value{RawBytes: v}.Verify(key)` (first argument the value bytes, second
the user key, `none` for a nil error) and the constant `BatchTypeValue`. -/
structure Env where
  SplitMVCCKey : Bytes → Option (Bytes × Bytes)
  DecodeKey : Bytes → Except Error (Bytes × Timestamp)
  EncodeKey : MVCCKey → Bytes
  Verify : Bytes → Bytes → Option Error
  BatchTypeValue : Nat

/-- Lines 179-201, `cockroachComparer.Compare`. -/
def Compare (env : Env) (a b : Bytes) : Int :=
  match env.SplitMVCCKey a, env.SplitMVCCKey b with
  | some (keyA, tsA), some (keyB, tsB) =>
    let c := bytesCompare keyA keyB
    if c ≠ 0 then c
    else if tsA.length = 0 then
      if tsB.length = 0 then 0 else -1
    else if tsB.length = 0 then 1
    else bytesCompare tsB tsA
  | _, _ => bytesCompare a b

/-- Modelled from the spec: the cursor `db.Iterator` of the sorted-table reader
(`cursor.next() -> bool`, `cursor.key()`, `cursor.value()`, `cursor.close() -> error`).
`rest` holds the entries (raw key, value) still ahead, `cur` the entry under the
cursor, `closeErr` what `Close` will return. -/
structure Cursor where
  rest : List (Bytes × Bytes)
  cur : Option (Bytes × Bytes)
  closeErr : Option Error
  deriving DecidableEq, Repr

/-- The cursor's `Next`: moves to the next entry and reports whether there is one. -/
def Cursor.Next (it : Cursor) : Bool × Cursor :=
  match it.rest with
  | [] => (false, { it with cur := none })
  | e :: es => (true, { it with rest := es, cur := some e })

/-- The cursor's `Key`: the raw key of the entry under the cursor. -/
def Cursor.Key (it : Cursor) : Bytes :=
  match it.cur with
  | some e => e.1
  | none => []

/-- The cursor's `Value`: the value of the entry under the cursor. -/
def Cursor.Value (it : Cursor) : Bytes :=
  match it.cur with
  | some e => e.2
  | none => []

/-- The cursor's `Close`. -/
def Cursor.Close (it : Cursor) : Option Error := it.closeErr

/-- Modelled from the spec: the sorted-table reader `table.Reader`
(`find(key, opts) -> cursor`, `reader.close() -> error`): the entries of the
table in file order, the close result of the cursors it hands out and its own
close result. -/
structure Reader where
  entries : List (Bytes × Bytes)
  iterCloseErr : Option Error
  closeErr : Option Error
  deriving DecidableEq, Repr

/-- Modelled from the spec: `Reader.Find(key, nil)` with the comparer of
`readerOpts` (line 29): a cursor positioned just before the first raw entry not
less than `key` under `Compare`, the stored key being the left operand. -/
def Reader.Find (env : Env) (sst : Reader) (key : Bytes) : Cursor :=
  { rest := sst.entries.dropWhile (fun e => decide (Compare env e.1 key < 0))
    cur := none
    closeErr := sst.iterCloseErr }

/-- Lines 33-51, `sstIterator` (the field `fs` is never read and left out).
`mvccKey.Key` holds the bytes that the slice stored at line 141 showed when it
was stored; the source does not copy that slice, and what it shows after a later
`Next` is the subject of `UnsafeKeyAfterNext`. -/
structure sstIterator where
  sst : Reader
  iter : Option Cursor
  valid : Bool
  err : Option Error
  mvccKey : MVCCKey
  nextKeyStart : Bytes
  verify : Bool
  deriving DecidableEq, Repr

/-- Lines 114-116, `sstIterator.Valid`. -/
def sstIterator.Valid (r : sstIterator) : Bool × Option Error :=
  (r.valid && r.err.isNone, r.err)

/-- Lines 119-152, `sstIterator.Next`.  `none` is the nil dereference of
`r.iter.Next()` when no cursor is open.  The field `mvccKey.Key` is the bytes of
`k` at line 141; on the returns that do not assign it, the field stays the same
slice, and the bytes behind that slice are those `UnsafeKeyAfterNext` gives. -/
def sstIterator.Next (env : Env) (r : sstIterator) : Option sstIterator :=
  match r.iter with
  | none => none
  | some it0 =>
    let it := it0.Next.2
    let r1 := { r with iter := some it, valid := it0.Next.1 }
    if !r1.valid then some r1
    else
      let rocksdbInternalKey := it.Key
      if rocksdbInternalKey.length < 8 then
        some { r1 with err := some (Error.invalidInternalKey rocksdbInternalKey) }
      else
        let seqAndValueType :=
          littleEndianUint64 (rocksdbInternalKey.drop (rocksdbInternalKey.length - 8))
        let valueType := seqAndValueType % 256
        if valueType ≠ env.BatchTypeValue then
          some { r1 with err := some (Error.valueTypeNotSupported valueType) }
        else
          let key := rocksdbInternalKey.take (rocksdbInternalKey.length - 8)
          match env.DecodeKey key with
          | Except.ok (k, ts) =>
            let r2 := { r1 with mvccKey := { Key := k, Timestamp := ts }, err := none }
            if r2.verify then
              some { r2 with err := env.Verify it.Value r2.mvccKey.Key }
            else some r2
          | Except.error e =>
            some { r1 with err := some (Error.decodingKey e key) }

/-- The guard of the loop of line 160:
`r.valid && r.err == nil && bytes.Equal(r.nextKeyStart, r.mvccKey.Key)`. -/
def sstIterator.sameKey (r : sstIterator) : Bool :=
  r.valid && r.err.isNone && bytesEqual r.nextKeyStart r.mvccKey.Key

/-- The loop of line 160 after its init statement: while the guard holds, `Next`.
The first argument bounds the number of iterations. -/
def sstIterator.nextKeyLoop (env : Env) : Nat → sstIterator → Option sstIterator
  | 0, r => some r
  | n + 1, r =>
    if r.sameKey then
      match r.Next env with
      | none => none
      | some r1 => sstIterator.nextKeyLoop env n r1
    else some r

/-- The number of entries ahead of the cursor. -/
def sstIterator.ahead (r : sstIterator) : Nat :=
  match r.iter with
  | none => 0
  | some it => it.rest.length

/-- Lines 155-162, `sstIterator.NextKey`.  Every `Next` either consumes an entry
ahead of the cursor or finds the cursor exhausted, which ends the loop, so the
loop makes at most as many passes as there are entries ahead of the cursor at
the call; the bound given to `nextKeyLoop` is one more than that. -/
def sstIterator.NextKey (env : Env) (r : sstIterator) : Option sstIterator :=
  if !r.valid then some r
  else
    let r1 := { r with nextKeyStart := r.mvccKey.Key }
    match r1.Next env with
    | none => none
    | some r2 => sstIterator.nextKeyLoop env (r.ahead + 1) r2

/-- Lines 103-111, `sstIterator.Seek`. -/
def sstIterator.Seek (env : Env) (r : sstIterator) (key : MVCCKey) : Option sstIterator :=
  match r.iter with
  | some it =>
    let r1 := { r with err := errorsWrap it.Close "resetting sstable iterator" }
    if r1.err ≠ none then some r1
    else
      sstIterator.Next env { r1 with iter := some (r1.sst.Find env (env.EncodeKey key)) }
  | none =>
    sstIterator.Next env { r with iter := some (r.sst.Find env (env.EncodeKey key)) }

/-- Lines 165-167, `sstIterator.UnsafeKey`: the field `mvccKey`. -/
def sstIterator.UnsafeKey (r : sstIterator) : MVCCKey := r.mvccKey

/-- Lines 170-172, `sstIterator.UnsafeValue`; `none` is the nil dereference when
no cursor is open. -/
def sstIterator.UnsafeValue (r : sstIterator) : Option Bytes :=
  match r.iter with
  | none => none
  | some it => some it.Value

/-- Lines 93-100, `sstIterator.Close`. -/
def sstIterator.Close (r : sstIterator) : sstIterator :=
  let r1 :=
    match r.iter with
    | some it => { r with err := errorsWrap it.Close "closing sstable iterator" }
    | none => r
  match r1.sst.closeErr with
  | some e =>
    if r1.err = none then { r1 with err := errorsWrap (some e) "closing sstable" } else r1
  | none => r1

/-- A well-formed plain-value entry (raw key, value) that decodes to `k`: the
four checks the decode step of lines 127-151 makes in order, all passing: raw key
of 8 bytes at least, plain-value tag in the low byte of the trailer, key part
decoded to `k`, and the payload accepted when verify is on. -/
def Env.decodesTo (env : Env) (verify : Bool) (e : Bytes × Bytes) (k : MVCCKey) : Prop :=
  8 ≤ e.1.length ∧
  littleEndianUint64 (e.1.drop (e.1.length - 8)) % 256 = env.BatchTypeValue ∧
  env.DecodeKey (e.1.take (e.1.length - 8)) = Except.ok (k.Key, k.Timestamp) ∧
  (verify = true → env.Verify e.2 k.Key = none)

/-- The user key the decoder finds in an entry's raw key once the trailer is
stripped, `none` when the decoder rejects it. -/
def Env.entryUserKey (env : Env) (e : Bytes × Bytes) : Option Bytes :=
  match env.DecodeKey (e.1.take (e.1.length - 8)) with
  | Except.ok (k, _) => some k
  | Except.error _ => none

/-- The state in which a successful decode step leaves the iterator: the cursor of
`it` moved onto entry `e` with `tl` still ahead, the validity flag set, the decoded
key `k` stored and the error cleared (lines 120, 141-143). -/
def sstIterator.onEntry (r : sstIterator) (it : Cursor) (e : Bytes × Bytes)
    (tl : List (Bytes × Bytes)) (k : MVCCKey) : sstIterator :=
  { r with iter := some { it with rest := tl, cur := some e },
           valid := true, mvccKey := k, err := none }

/-- One call of a caller between two status checks. -/
inductive Op where
  | next
  | nextKey
  deriving DecidableEq, Repr

/-- Runs one call. -/
def sstIterator.step (env : Env) (r : sstIterator) : Op → Option sstIterator
  | Op.next => r.Next env
  | Op.nextKey => r.NextKey env

/-- Runs a sequence of calls, left to right. -/
def sstIterator.run (env : Env) : List Op → sstIterator → Option sstIterator
  | [], r => some r
  | op :: ops, r =>
    match r.step env op with
    | none => none
    | some r1 => sstIterator.run env ops r1

/-- A freshly constructed iterator over a table (lines 64 and 89): no cursor,
not valid, no error. -/
def newIterator (sst : Reader) (verify : Bool) : sstIterator :=
  { sst := sst
    iter := none
    valid := false
    err := none
    mvccKey := { Key := [], Timestamp := { WallTime := 0, Logical := 0 } }
    nextKeyStart := []
    verify := verify }

/-! ## An instance of the codec

The theorems below hold for every `Env`, but for the law on the order of
versions, which is a property of the codec.  That law, the witnesses and the
counterexamples need one concrete codec: the MVCC key layout, in which an
encoded key is the user key, a zero byte, the timestamp bytes when there is a
timestamp, and one final byte holding the length of what stands between the
user key and itself. -/

/-- Go standard library `binary.BigEndian.PutUint64` / `PutUint32`: the `n` low
bytes of `v`, most significant first. -/
def bigEndianBytes : Nat → Nat → Bytes
  | 0, _ => []
  | n + 1, v => bigEndianBytes n (v / 256) ++ [⟨v % 256, Nat.mod_lt _ (by decide)⟩]

/-- Go standard library `binary.BigEndian.Uint64` / `Uint32`: the number whose
big-endian bytes are `b`. -/
def bigEndianUint (b : Bytes) : Nat :=
  b.foldl (fun acc x => 256 * acc + x.val) 0

/-- Go conversion of an unsigned `w`-bit number to the signed type of the same width. -/
def toSigned (w : Nat) (u : Nat) : Int :=
  if u < 2 ^ (w - 1) then (u : Int) else (u : Int) - 2 ^ w

/-- Modelled from the spec: `splitKey(bytes) -> (userKey, timestampBytes, ok)`,
the codec's `enginepb.SplitMVCCKey`, not among the sources.  The last byte is
the length of the timestamp part; the user key is what precedes that part, the
timestamp bytes are the part without its leading zero byte.  An empty key and a
length byte larger than what precedes it do not split. -/
def mvccSplitMVCCKey (mvccKey : Bytes) : Option (Bytes × Bytes) :=
  match mvccKey.getLast? with
  | none => none
  | some last =>
    let tsLen := last.val
    if mvccKey.length < 1 + tsLen then none
    else
      let keyPartEnd := mvccKey.length - 1 - tsLen
      some (mvccKey.take keyPartEnd,
        if 0 < tsLen then (mvccKey.take (mvccKey.length - 1)).drop (keyPartEnd + 1) else [])

/-- Modelled from the spec: `decodeKey(bytes) -> (userKey, timestamp, error)`, the
codec's `enginepb.DecodeKey`, not among the sources: split, then read 8 bytes of
wall time and, when present, 4 bytes of logical time, both big-endian; the zero
timestamp stands for no timestamp. -/
def mvccDecodeKey (encodedKey : Bytes) : Except Error (Bytes × Timestamp) :=
  match mvccSplitMVCCKey encodedKey with
  | none => Except.error (Error.external "invalid encoded mvcc key")
  | some (key, ts) =>
    if ts.length = 0 then Except.ok (key, { WallTime := 0, Logical := 0 })
    else if ts.length = 8 then
      Except.ok (key, { WallTime := toSigned 64 (bigEndianUint ts), Logical := 0 })
    else if ts.length = 12 then
      Except.ok (key, { WallTime := toSigned 64 (bigEndianUint (ts.take 8)),
                        Logical := toSigned 32 (bigEndianUint (ts.drop 8)) })
    else Except.error (Error.external "invalid encoded mvcc key: bad timestamp")

/-- Modelled from the spec: `encodeKey(MVCCKey) -> bytes`, the codec's
`EncodeKey`, not among the sources: the user key, then for a non-zero timestamp
a zero byte, the wall time on 8 bytes and a non-zero logical time on 4 bytes,
then the length byte. -/
def mvccEncodeKey (key : MVCCKey) : Bytes :=
  let tsPart : Bytes :=
    if key.Timestamp = { WallTime := 0, Logical := 0 } then []
    else
      (0 : Byte) :: (bigEndianBytes 8 (key.Timestamp.WallTime % 2 ^ 64).toNat ++
        (if key.Timestamp.Logical ≠ 0
          then bigEndianBytes 4 (key.Timestamp.Logical % 2 ^ 32).toNat else []))
  key.Key ++ tsPart ++ [⟨tsPart.length % 256, Nat.mod_lt _ (by decide)⟩]

/-- The codec instance: the MVCC key layout, the plain-value tag 1 of the table
format, and a payload check left as a parameter. -/
def mvccEnv (verify : Bytes → Bytes → Option Error) : Env :=
  { SplitMVCCKey := mvccSplitMVCCKey
    DecodeKey := mvccDecodeKey
    EncodeKey := mvccEncodeKey
    Verify := verify
    BatchTypeValue := 1 }

/-- A payload check that accepts every value. -/
def verifyNone : Bytes → Bytes → Option Error := fun _ _ => none

/-- The codec instance with a payload check that accepts every value. -/
def env0 : Env := mvccEnv verifyNone

/-! ## Example tables -/

/-- The trailer of a plain value with sequence number 0: tag 1 in the low byte. -/
def plainTrailer : Bytes := [1, 0, 0, 0, 0, 0, 0, 0]

/-- The table entry of key `k` and value `v`: the encoded key, then the trailer. -/
def entryOf (k : MVCCKey) (v : Bytes) : Bytes × Bytes :=
  (mvccEncodeKey k ++ plainTrailer, v)

/-- The key of a one-byte user key at a wall time. -/
def keyAt (userKey : Byte) (wall : Int) : MVCCKey :=
  { Key := [userKey], Timestamp := { WallTime := wall, Logical := 0 } }

/-- The key with an empty user key and no timestamp, below every entry. -/
def keyMin : MVCCKey := { Key := [], Timestamp := { WallTime := 0, Logical := 0 } }

/-- A table whose closes succeed. -/
def tableOf (entries : List (Bytes × Bytes)) : Reader :=
  { entries := entries, iterCloseErr := none, closeErr := none }

/-- Three versions of user key A (65), newest first, then one version of B (66). -/
def tableAAAB : Reader :=
  tableOf [entryOf (keyAt 65 3) [3], entryOf (keyAt 65 2) [2], entryOf (keyAt 65 1) [1],
    entryOf (keyAt 66 1) [9]]

/-- Three versions of user key A (65), newest first, and nothing else. -/
def tableAAA : Reader :=
  tableOf [entryOf (keyAt 65 3) [3], entryOf (keyAt 65 2) [2], entryOf (keyAt 65 1) [1]]

/-- One version of user key A, at wall time 5. -/
def tableA5 : Reader := tableOf [entryOf (keyAt 65 5) [7]]

/-- A raw key of three bytes, too short to hold a trailer, then a good entry. -/
def tableShortThenGood : Reader := tableOf [([1, 2, 3], []), entryOf (keyAt 65 5) [7]]

/-- Two raw keys of three bytes, both too short to hold a trailer. -/
def tableShortShort : Reader := tableOf [([1, 2, 3], []), ([4, 5, 6], [])]

/-- The state after `Seek` has met the short raw key 01 02 03 at the end of a
table: cursor exhausted, validity flag set by the cursor, error recorded. -/
def stateShortAtEnd : sstIterator :=
  { sst := tableOf [([1, 2, 3], [])]
    iter := some { rest := [], cur := some ([1, 2, 3], []), closeErr := none }
    valid := true
    err := some (Error.invalidInternalKey [1, 2, 3])
    mvccKey := keyMin
    nextKeyStart := []
    verify := false }

/-- An iterator whose cursor stands just before the only entry of `tableA5`. -/
def stateBeforeA5 : sstIterator :=
  { newIterator tableA5 false with
    iter := some { rest := [entryOf (keyAt 65 5) [7]], cur := none, closeErr := none } }

/-- The state after `Seek` to A at wall time 3 on `tableAAAB`: on the first entry. -/
def stateOnA3 : sstIterator :=
  { newIterator tableAAAB false with
    iter := some { rest := [entryOf (keyAt 65 2) [2], entryOf (keyAt 65 1) [1],
                            entryOf (keyAt 66 1) [9]],
                   cur := some (entryOf (keyAt 65 3) [3]), closeErr := none }
    valid := true
    mvccKey := keyAt 65 3 }

/-! ## Reachable states, observations, construction -/

/-- The states a caller can bring an iterator into: construction, then any
sequence of `Seek`, `Next` and `NextKey` calls that return. -/
inductive Reachable (env : Env) : sstIterator → Prop where
  | fresh (sst : Reader) (verify : Bool) : Reachable env (newIterator sst verify)
  | seek (r r1 : sstIterator) (key : MVCCKey) :
      Reachable env r → r.Seek env key = some r1 → Reachable env r1
  | next (r r1 : sstIterator) : Reachable env r → r.Next env = some r1 → Reachable env r1
  | nextKey (r r1 : sstIterator) :
      Reachable env r → r.NextKey env = some r1 → Reachable env r1

/-- What a caller can observe of a position: the result of `Valid` and, when it
is true, the results of `UnsafeKey` and `UnsafeValue`. -/
def sstIterator.observe (r : sstIterator) :
    (Bool × Option Error) × Option (MVCCKey × Option Bytes) :=
  (r.Valid, if r.Valid.1 then some (r.UnsafeKey, r.UnsafeValue) else none)

/-- A close call that `Close` makes on one of its two resources. -/
inductive CloseCall where
  | cursor
  | table
  deriving DecidableEq, Repr

/-- The close calls of lines 93-100 in the order they are made: `r.iter.Close()`
inside the test `r.iter != nil` (line 94), then `r.sst.Close()`, which the
condition of line 97 evaluates first, on every path. -/
def sstIterator.closeCalls (r : sstIterator) : List CloseCall :=
  (match r.iter with
    | some _ => [CloseCall.cursor]
    | none => []) ++ [CloseCall.table]

/-- Modelled from the spec: the filesystem abstraction used to open an on-disk
table image, `db.DefaultFileSystem.Open(path)`: the file's contents or an error. -/
structure FileSystem where
  Open : String → Except Error Bytes

/-- Modelled from the spec: the outcomes of the four calls on the ephemeral
in-memory store of lines 72-88 (`Create`, `Write`, `Close`, `Open`), `none` for
a nil error; the file reopened for reading holds the bytes written. -/
structure MemFS where
  createErr : Option Error
  writeErr : Option Error
  closeErr : Option Error
  openErr : Option Error

/-- Lines 59-65, `NewSSTIterator`; `newReader` stands for
`table.NewReader(file, readerOpts)`. -/
def NewSSTIterator (fs : FileSystem) (newReader : Bytes → Reader) (path : String) :
    Except Error sstIterator :=
  match fs.Open path with
  | Except.error err => Except.error err
  | Except.ok file => Except.ok (newIterator (newReader file) false)

/-- Lines 71-90, `NewMemSSTIterator`; `newReader` stands for
`table.NewReader(file, readerOpts)`. -/
def NewMemSSTIterator (fs : MemFS) (newReader : Bytes → Reader) (data : Bytes)
    (verify : Bool) : Except Error sstIterator :=
  match fs.createErr with
  | some err => Except.error err
  | none =>
    match fs.writeErr with
    | some err => Except.error err
    | none =>
      match fs.closeErr with
      | some err => Except.error err
      | none =>
        match fs.openErr with
        | some err => Except.error err
        | none => Except.ok (newIterator (newReader data) verify)

/-- A payload check for the examples: a value of 1 to 4 bytes, too short for
the 5-byte value header, is rejected; every other value is accepted. -/
def verifyHeader : Bytes → Bytes → Option Error := fun v _ =>
  if 0 < v.length ∧ v.length < 5 then some (Error.external "invalid header size") else none

/-- The codec instance with the payload check `verifyHeader`. -/
def env1 : Env := mvccEnv verifyHeader

/-- Two versions of A with empty payloads, then a version of A whose payload of
one byte fails `verifyHeader`, then B. -/
def tableBadThird : Reader :=
  tableOf [entryOf (keyAt 65 3) [], entryOf (keyAt 65 2) [], entryOf (keyAt 65 1) [9],
    entryOf (keyAt 66 1) []]

/-- A table whose cursors fail to close, the table itself closing well. -/
def tableCursorCloseFails : Reader :=
  { entries := [entryOf (keyAt 65 5) [7]]
    iterCloseErr := some (Error.external "cursor close")
    closeErr := none }

/-- A table whose cursors and which itself fail to close. -/
def tableBothCloseFail : Reader :=
  { entries := [entryOf (keyAt 65 5) [7]]
    iterCloseErr := some (Error.external "cursor close")
    closeErr := some (Error.external "table close") }

/-- A filesystem holding one file, named data.sst, of three bytes. -/
def fsOneFile : FileSystem :=
  { Open := fun path =>
      if path = "data.sst" then Except.ok [1, 2, 3]
      else Except.error (Error.external "file does not exist") }

/-- An in-memory store on which every call succeeds. -/
def memFSOk : MemFS := { createErr := none, writeErr := none, closeErr := none, openErr := none }

/-- A table reader for the examples: whatever the image, the table `tableA5`. -/
def readerA5 : Bytes → Reader := fun _ => tableA5

/-- The state in which a failed decode step leaves the iterator: the cursor of
`it` moved onto entry `e` with `tl` still ahead, the validity flag set by the
cursor, the error recorded, the decoded key untouched (lines 120, 129, 134, 145). -/
def sstIterator.failedOn (r : sstIterator) (it : Cursor) (e : Bytes × Bytes)
    (tl : List (Bytes × Bytes)) (err : Error) : sstIterator :=
  { r with iter := some { it with rest := tl, cur := some e },
           valid := true, err := some err }

/-- The state of `Seek` at line 110, just before its decode step, when the close
of the cursor that was open, if any, has succeeded: the error is nil after a
close (line 105) and untouched when there was no cursor, and the cursor is the
one `Find` returns (line 109). -/
def sstIterator.reopened (env : Env) (r : sstIterator) (key : MVCCKey) : sstIterator :=
  { r with iter := some (r.sst.Find env (env.EncodeKey key)),
           err := match r.iter with
             | some _ => none
             | none => r.err }

/-- An iterator on the only entry of `tableBothCloseFail`, its cursor open. -/
def stateBothCloseFail : sstIterator :=
  { newIterator tableBothCloseFail false with
    iter := some { rest := [], cur := some (entryOf (keyAt 65 5) [7]),
                   closeErr := some (Error.external "cursor close") }
    valid := true
    mvccKey := keyAt 65 5 }

/-- The state after `Seek` to `keyMin` on `tableShortThenGood`: the cursor on the
3-byte raw key, the short-key error recorded, the good entry still ahead. -/
def stateAfterShort : sstIterator :=
  { newIterator tableShortThenGood false with
    iter := some { rest := [entryOf (keyAt 65 5) [7]], cur := some ([1, 2, 3], []),
                   closeErr := none }
    valid := true
    err := some (Error.invalidInternalKey [1, 2, 3]) }

/-- An iterator, verify off, whose cursor stands just before the given entries. -/
def cursorBefore (entries : List (Bytes × Bytes)) : sstIterator :=
  { newIterator (tableOf entries) false with
    iter := some { rest := entries, cur := none, closeErr := none } }

/-- The state after `Seek` to A at wall time 3 on `tableBadThird`, verify on: on
the first entry, a good version of A and the version with the bad payload ahead. -/
def stateOnA3BadThird : sstIterator :=
  { newIterator tableBadThird true with
    iter := some { rest := [entryOf (keyAt 65 2) [], entryOf (keyAt 65 1) [9],
                            entryOf (keyAt 66 1) []],
                   cur := some (entryOf (keyAt 65 3) []), closeErr := none }
    valid := true
    mvccKey := keyAt 65 3 }

/-- A state on A at wall time 3, decoded, with the 3-byte raw key 01 02 03 next. -/
def stateOnA3ThenShort : sstIterator :=
  { newIterator (tableOf [entryOf (keyAt 65 3) [3], ([1, 2, 3], [])]) false with
    iter := some { rest := [([1, 2, 3], [])], cur := some (entryOf (keyAt 65 3) [3]),
                   closeErr := none }
    valid := true
    mvccKey := keyAt 65 3 }

/-! ## The comparator's other operation, entry predicates for the skip-scan -/

/-- Lines 208-210, `cockroachComparer.AppendSeparator`: the body is
`panic("unimplemented")`; `none` is the panic, as for a nil dereference. -/
def AppendSeparator (_dst _a _b : Bytes) : Option Bytes := none

/-- An entry on which the decode step of lines 127-151 fails with `err`, in one
of its four ways: raw key shorter than 8 bytes; a tag other than the plain-value
tag; key part rejected by the decoder; payload rejected with verify on. -/
def Env.failsWith (env : Env) (verify : Bool) (e : Bytes × Bytes) (err : Error) : Prop :=
  (e.1.length < 8 ∧ err = Error.invalidInternalKey e.1) ∨
  (8 ≤ e.1.length ∧
    littleEndianUint64 (e.1.drop (e.1.length - 8)) % 256 ≠ env.BatchTypeValue ∧
    err = Error.valueTypeNotSupported
      (littleEndianUint64 (e.1.drop (e.1.length - 8)) % 256)) ∨
  (8 ≤ e.1.length ∧
    littleEndianUint64 (e.1.drop (e.1.length - 8)) % 256 = env.BatchTypeValue ∧
    ∃ cause, env.DecodeKey (e.1.take (e.1.length - 8)) = Except.error cause ∧
      err = Error.decodingKey cause (e.1.take (e.1.length - 8))) ∨
  (verify = true ∧ ∃ k, env.decodesTo false e k ∧ env.Verify e.2 k.Key = some err)

/-- Whether an entry decodes successfully to user key `K`: raw key of 8 bytes at
least, plain-value tag, key part decoded to a key whose user key is `K`, and the
payload accepted when verify is on. -/
def Env.sameKeyEntry (env : Env) (verify : Bool) (K : Bytes) (e : Bytes × Bytes) : Bool :=
  decide (8 ≤ e.1.length) &&
  decide (littleEndianUint64 (e.1.drop (e.1.length - 8)) % 256 = env.BatchTypeValue) &&
  (match env.DecodeKey (e.1.take (e.1.length - 8)) with
    | Except.ok (k, _) => decide (k = K) && (!verify || (env.Verify e.2 k).isNone)
    | Except.error _ => false)

/-- What the words "1 + m successive Next calls" say of `NextKey`: `m` is the
number of entries right ahead of the cursor that decode successfully to the user
key of the starting position, and the calls start from the state in which the
reuse buffer holds that user key (line 159). -/
def sstIterator.NextKeyByNext (env : Env) (r : sstIterator) : Option sstIterator :=
  match r.iter with
  | none => none
  | some it =>
    sstIterator.run env
      (List.replicate (1 + (it.rest.takeWhile (env.sameKeyEntry r.verify r.mvccKey.Key)).length)
        Op.next)
      { r with nextKeyStart := r.mvccKey.Key }

/-! ## The decoded key as a view of the cursor's key buffer -/

/-- What the cursor's `Next` does with the array behind the key it returned last.
The table reader is outside the sources; the spec calls the keys it hands out
views into iterator-owned buffers, valid only until the next call.  Either the
cursor writes the new raw key into that same array, or it leaves the array alone
and takes another one. -/
inductive KeyBuffer where
  | rewritten
  | replaced
  deriving DecidableEq, Repr

/-- The leading bytes of an array that held `old` once `new` has been written into
it from its first byte on: `new`, then the bytes of `old` beyond the length of
`new`. -/
def keyBufferAfter (old new : Bytes) : Bytes := new ++ old.drop new.length

/-- Lines 119-152 followed by `UnsafeKey` (lines 165-167), with the user key read
through the memory it points to.  `r.mvccKey.Key` is the slice `k` that `DecodeKey`
returned (lines 140-141), stored without a copy; `DecodeKey` was given
`rocksdbInternalKey[:len-8]` (line 138), a slice of the cursor's own key (line
127).  For a decoder that returns the leading bytes of its argument, as the MVCC
layout's does, `r.mvccKey.Key` is the view of the first `len(k)` bytes of the
cursor's key buffer.  The returns of lines 121, 130, 135 and 146 leave the field
as it is, after line 120 has moved the cursor; `how` says what the cursor did
with its buffer.  `none` is the nil dereference, as in `Next`. -/
def sstIterator.UnsafeKeyAfterNext (env : Env) (how : KeyBuffer) (r : sstIterator) :
    Option MVCCKey :=
  match r.iter with
  | none => none
  | some it0 =>
    let it := it0.Next.2
    if !it0.Next.1 then some r.mvccKey
    else
      let rocksdbInternalKey := it.Key
      let shown : MVCCKey :=
        match how with
        | KeyBuffer.rewritten =>
          { Key := (keyBufferAfter it0.Key rocksdbInternalKey).take r.mvccKey.Key.length
            Timestamp := r.mvccKey.Timestamp }
        | KeyBuffer.replaced => r.mvccKey
      if rocksdbInternalKey.length < 8 then some shown
      else if littleEndianUint64 (rocksdbInternalKey.drop (rocksdbInternalKey.length - 8)) % 256
          ≠ env.BatchTypeValue then some shown
      else
        match env.DecodeKey (rocksdbInternalKey.take (rocksdbInternalKey.length - 8)) with
        | Except.ok (k, ts) => some { Key := k, Timestamp := ts }
        | Except.error _ => some shown

/-! ## The order of timestamps -/

/-- Modelled from the spec: the order `t1 > t2` of timestamps, `hlc.Timestamp.Less`,
not among the sources: `t.Less s` says that `t` is older than `s`, by wall time
first and by logical time for equal wall times. -/
def Timestamp.Less (t s : Timestamp) : Prop :=
  t.WallTime < s.WallTime ∨ (t.WallTime = s.WallTime ∧ t.Logical < s.Logical)

/-- A timestamp whose wall time and logical time are not negative (and within
the `int64` and `int32` of their Go type). -/
def Timestamp.nonNegative (t : Timestamp) : Prop :=
  0 ≤ t.WallTime ∧ t.WallTime < 2 ^ 63 ∧ 0 ≤ t.Logical ∧ t.Logical < 2 ^ 31

/-- The zero timestamp, which the codec reads and writes as no timestamp. -/
def Timestamp.zero : Timestamp := { WallTime := 0, Logical := 0 }

/-! ## Byte-wise comparison -/

theorem bytesCompare_range (a b : Bytes) :
    bytesCompare a b = -1 ∨ bytesCompare a b = 0 ∨ bytesCompare a b = 1 := by
  induction a generalizing b with
  | nil => cases b <;> simp [bytesCompare]
  | cons x xs ih =>
    cases b with
    | nil => simp [bytesCompare]
    | cons y ys =>
      simp only [bytesCompare]
      split_ifs
      · simp
      · simp
      · exact ih ys

theorem bytesCompare_antisymm (a b : Bytes) : bytesCompare b a = - bytesCompare a b := by
  induction a generalizing b with
  | nil => cases b <;> simp [bytesCompare]
  | cons x xs ih =>
    cases b with
    | nil => simp [bytesCompare]
    | cons y ys =>
      simp only [bytesCompare]
      rcases lt_trichotomy x y with h | h | h
      · simp [h, lt_asymm h]
      · subst h
        simp [ih ys]
      · simp [h, lt_asymm h]

theorem bytesCompare_eq_zero_iff (a b : Bytes) : bytesCompare a b = 0 ↔ a = b := by
  induction a generalizing b with
  | nil => cases b <;> simp [bytesCompare]
  | cons x xs ih =>
    cases b with
    | nil => simp [bytesCompare]
    | cons y ys =>
      simp only [bytesCompare]
      rcases lt_trichotomy x y with h | h | h
      · simp [h, ne_of_lt h]
      · subst h
        simp [ih ys]
      · simp [h, lt_asymm h, ne_of_gt h]

theorem bytesCompare_self (a : Bytes) : bytesCompare a a = 0 :=
  (bytesCompare_eq_zero_iff a a).2 rfl

theorem bytesCompare_lt_trans (a b c : Bytes)
    (hab : bytesCompare a b < 0) (hbc : bytesCompare b c < 0) : bytesCompare a c < 0 := by
  induction a generalizing b c with
  | nil =>
    cases b with
    | nil => simp [bytesCompare] at hab
    | cons y ys =>
      cases c with
      | nil => simp [bytesCompare] at hbc
      | cons z zs => simp [bytesCompare]
  | cons x xs ih =>
    cases b with
    | nil => simp [bytesCompare] at hab
    | cons y ys =>
      cases c with
      | nil => simp [bytesCompare] at hbc
      | cons z zs =>
        simp only [bytesCompare] at hab hbc ⊢
        rcases lt_trichotomy x y with h | h | h
        · rcases lt_trichotomy y z with h2 | h2 | h2
          · simp [lt_trans h h2]
          · subst h2
            simp [h]
          · simp [h2, lt_asymm h2] at hbc
        · subst h
          rcases lt_trichotomy x z with h2 | h2 | h2
          · simp [h2]
          · subst h2
            simp only [lt_irrefl, if_false] at hab hbc ⊢
            exact ih ys zs hab hbc
          · simp [h2, lt_asymm h2] at hbc
        · simp [h, lt_asymm h] at hab

theorem bytesCompare_le_trans (a b c : Bytes)
    (hab : bytesCompare a b ≤ 0) (hbc : bytesCompare b c ≤ 0) : bytesCompare a c ≤ 0 := by
  rcases lt_or_eq_of_le hab with h1 | h1
  · rcases lt_or_eq_of_le hbc with h2 | h2
    · exact le_of_lt (bytesCompare_lt_trans a b c h1 h2)
    · rw [(bytesCompare_eq_zero_iff b c).1 h2] at h1
      exact le_of_lt h1
  · rw [(bytesCompare_eq_zero_iff a b).1 h1]
    exact hbc


theorem Compare_of_fail (env : Env) (a b : Bytes)
    (h : env.SplitMVCCKey a = none ∨ env.SplitMVCCKey b = none) :
    Compare env a b = bytesCompare a b := by
  unfold Compare
  rcases h with h | h
  · rw [h]
  · rw [h]
    cases env.SplitMVCCKey a <;> rfl

theorem Compare_of_split (env : Env) (a b keyA tsA keyB tsB : Bytes)
    (ha : env.SplitMVCCKey a = some (keyA, tsA)) (hb : env.SplitMVCCKey b = some (keyB, tsB)) :
    Compare env a b =
      if bytesCompare keyA keyB ≠ 0 then bytesCompare keyA keyB
      else if tsA.length = 0 then (if tsB.length = 0 then 0 else -1)
      else if tsB.length = 0 then 1
      else bytesCompare tsB tsA := by
  unfold Compare
  rw [ha, hb]

theorem ts_order_trans (tA tB tC : Bytes)
    (hab : (if tA.length = 0 then (if tB.length = 0 then (0 : Int) else -1)
      else if tB.length = 0 then 1 else bytesCompare tB tA) ≤ 0)
    (hbc : (if tB.length = 0 then (if tC.length = 0 then (0 : Int) else -1)
      else if tC.length = 0 then 1 else bytesCompare tC tB) ≤ 0) :
    (if tA.length = 0 then (if tC.length = 0 then (0 : Int) else -1)
      else if tC.length = 0 then 1 else bytesCompare tC tA) ≤ 0 := by
  by_cases hA : tA.length = 0
  · simp only [hA, if_true]
    split_ifs <;> simp
  · by_cases hB : tB.length = 0
    · simp [hA, hB] at hab
    · by_cases hC : tC.length = 0
      · simp [hB, hC] at hbc
      · simp only [hA, hB, hC, if_false] at hab hbc ⊢
        exact bytesCompare_le_trans tC tB tA hbc hab

theorem Compare_trans_split (env : Env) (a b c : Bytes)
    (ha : (env.SplitMVCCKey a).isSome) (hb : (env.SplitMVCCKey b).isSome)
    (hc : (env.SplitMVCCKey c).isSome)
    (hab : Compare env a b ≤ 0) (hbc : Compare env b c ≤ 0) : Compare env a c ≤ 0 := by
  obtain ⟨⟨kA, tA⟩, ha⟩ := Option.isSome_iff_exists.1 ha
  obtain ⟨⟨kB, tB⟩, hb⟩ := Option.isSome_iff_exists.1 hb
  obtain ⟨⟨kC, tC⟩, hc⟩ := Option.isSome_iff_exists.1 hc
  rw [Compare_of_split env a b kA tA kB tB ha hb] at hab
  rw [Compare_of_split env b c kB tB kC tC hb hc] at hbc
  rw [Compare_of_split env a c kA tA kC tC ha hc]
  by_cases h1 : bytesCompare kA kB = 0
  · have e1 := (bytesCompare_eq_zero_iff kA kB).1 h1
    subst e1
    by_cases h2 : bytesCompare kA kC = 0
    · simp only [h1, h2, ne_eq, not_true_eq_false, if_false] at hab hbc ⊢
      exact ts_order_trans tA tB tC hab hbc
    · simp only [h2, ne_eq, not_false_eq_true, if_true] at hbc ⊢
      exact hbc
  · simp only [h1, ne_eq, not_false_eq_true, if_true] at hab
    have hlt : bytesCompare kA kB < 0 := lt_of_le_of_ne hab h1
    by_cases h2 : bytesCompare kB kC = 0
    · have e2 := (bytesCompare_eq_zero_iff kB kC).1 h2
      subst e2
      simp only [h1, ne_eq, not_false_eq_true, if_true]
      exact hab
    · simp only [h2, ne_eq, not_false_eq_true, if_true] at hbc
      have hlt2 : bytesCompare kB kC < 0 := lt_of_le_of_ne hbc h2
      have hac := bytesCompare_lt_trans kA kB kC hlt hlt2
      simp only [ne_of_lt hac, ne_eq, not_false_eq_true, if_true]
      exact le_of_lt hac

/-- C1 (amended): `Compare` is transitive on every triple of keys that all split
successfully, and on every triple of which at least two fail to split (all three
comparisons are then byte-wise). -/
theorem Compare_trans_uniform (env : Env) (a b c : Bytes)
    (h : ((env.SplitMVCCKey a).isSome ∧ (env.SplitMVCCKey b).isSome ∧
            (env.SplitMVCCKey c).isSome) ∨
         (env.SplitMVCCKey a = none ∧ env.SplitMVCCKey b = none) ∨
         (env.SplitMVCCKey a = none ∧ env.SplitMVCCKey c = none) ∨
         (env.SplitMVCCKey b = none ∧ env.SplitMVCCKey c = none))
    (hab : Compare env a b ≤ 0) (hbc : Compare env b c ≤ 0) : Compare env a c ≤ 0 := by
  rcases h with ⟨ha, hb, hc⟩ | ⟨ha, hb⟩ | ⟨ha, hc⟩ | ⟨hb, hc⟩
  · exact Compare_trans_split env a b c ha hb hc hab hbc
  · rw [Compare_of_fail env a b (Or.inl ha)] at hab
    rw [Compare_of_fail env b c (Or.inl hb)] at hbc
    rw [Compare_of_fail env a c (Or.inl ha)]
    exact bytesCompare_le_trans a b c hab hbc
  · rw [Compare_of_fail env a b (Or.inl ha)] at hab
    rw [Compare_of_fail env b c (Or.inr hc)] at hbc
    rw [Compare_of_fail env a c (Or.inl ha)]
    exact bytesCompare_le_trans a b c hab hbc
  · rw [Compare_of_fail env a b (Or.inr hb)] at hab
    rw [Compare_of_fail env b c (Or.inl hb)] at hbc
    rw [Compare_of_fail env a c (Or.inr hc)]
    exact bytesCompare_le_trans a b c hab hbc

/-- C1 (witness): three encoded keys of the MVCC layout, A at time 5, A at time 3
and B at time 1, all split, are in order, and the first is below the last. -/
theorem Compare_trans_uniform_witness :
    Compare env0 (mvccEncodeKey ⟨[65], ⟨5, 0⟩⟩) (mvccEncodeKey ⟨[65], ⟨3, 0⟩⟩) ≤ 0 ∧
    Compare env0 (mvccEncodeKey ⟨[65], ⟨3, 0⟩⟩) (mvccEncodeKey ⟨[66], ⟨1, 0⟩⟩) ≤ 0 ∧
    Compare env0 (mvccEncodeKey ⟨[65], ⟨5, 0⟩⟩) (mvccEncodeKey ⟨[66], ⟨1, 0⟩⟩) ≤ 0 :=
  ⟨by decide, by decide,
    Compare_trans_uniform env0 (mvccEncodeKey ⟨[65], ⟨5, 0⟩⟩) (mvccEncodeKey ⟨[65], ⟨3, 0⟩⟩)
      (mvccEncodeKey ⟨[66], ⟨1, 0⟩⟩) (Or.inl ⟨by decide, by decide, by decide⟩)
      (by decide) (by decide)⟩

/-- C1 (counterexample): with the MVCC layout, the key 02 00 splits (user key 02),
the key 03 does not split, the key 03 01 splits (empty user key); the first is
below the second and the second below the third byte-wise, yet the first is
above the third by user key. -/
theorem Compare_not_transitive :
    mvccSplitMVCCKey [2, 0] = some ([2], []) ∧ mvccSplitMVCCKey [3] = none ∧
    mvccSplitMVCCKey [3, 1] = some ([], []) ∧
    Compare env0 [2, 0] [3] ≤ 0 ∧ Compare env0 [3] [3, 1] ≤ 0 ∧
    ¬ Compare env0 [2, 0] [3, 1] ≤ 0 := by
  decide

/-- C2: for every pair of byte strings, `Compare b a` is the negation of
`Compare a b`, and `Compare a a` is 0, whether or not the keys split. -/
theorem Compare_antisymm (env : Env) (a b : Bytes) :
    Compare env b a = - Compare env a b ∧ Compare env a a = 0 := by
  constructor
  · cases ha : env.SplitMVCCKey a with
    | none =>
      rw [Compare_of_fail env a b (Or.inl ha), Compare_of_fail env b a (Or.inr ha)]
      exact bytesCompare_antisymm a b
    | some pa =>
      cases hb : env.SplitMVCCKey b with
      | none =>
        rw [Compare_of_fail env a b (Or.inr hb), Compare_of_fail env b a (Or.inl hb)]
        exact bytesCompare_antisymm a b
      | some pb =>
        obtain ⟨kA, tA⟩ := pa
        obtain ⟨kB, tB⟩ := pb
        rw [Compare_of_split env a b kA tA kB tB ha hb,
          Compare_of_split env b a kB tB kA tA hb ha, bytesCompare_antisymm kA kB,
          bytesCompare_antisymm tB tA]
        split_ifs <;> simp_all
  · cases ha : env.SplitMVCCKey a with
    | none =>
      rw [Compare_of_fail env a a (Or.inl ha)]
      exact bytesCompare_self a
    | some pa =>
      obtain ⟨kA, tA⟩ := pa
      rw [Compare_of_split env a a kA tA kA tA ha ha, bytesCompare_self kA, bytesCompare_self tA]
      split_ifs <;> simp_all


/-- C4: for two keys that split with the same user key, a key without timestamp
bytes compares -1 against a key with timestamp bytes (and 1 the other way
round), and two keys without timestamp bytes compare 0. -/
theorem Compare_timestampless_first (env : Env) (a b k tsA tsB : Bytes)
    (ha : env.SplitMVCCKey a = some (k, tsA)) (hb : env.SplitMVCCKey b = some (k, tsB))
    (hA : tsA.length = 0) :
    (tsB.length ≠ 0 → Compare env a b = -1 ∧ Compare env b a = 1) ∧
    (tsB.length = 0 → Compare env a b = 0) := by
  rw [Compare_of_split env a b k tsA k tsB ha hb, Compare_of_split env b a k tsB k tsA hb ha,
    bytesCompare_self k]
  constructor
  · intro hB
    simp [hA, hB]
  · intro hB
    simp [hA, hB]

/-- C4 (witness): the key of A without timestamp against A at wall time 5, in
the MVCC layout. -/
theorem Compare_timestampless_first_witness :
    Compare env0 [65, 0] [65, 0, 0, 0, 0, 0, 0, 0, 0, 5, 9] = -1 ∧
      Compare env0 [65, 0, 0, 0, 0, 0, 0, 0, 0, 5, 9] [65, 0] = 1 :=
  (Compare_timestampless_first env0 [65, 0] [65, 0, 0, 0, 0, 0, 0, 0, 0, 5, 9] [65] []
    [0, 0, 0, 0, 0, 0, 0, 5] (by decide) (by decide) (by decide)).1 (by decide)

/-- C5: when the split fails for either key, `Compare` is the byte-wise
comparison of the raw keys; and for every pair of byte strings `Compare` returns
a value, which is -1, 0 or 1. -/
theorem Compare_fallback_total (env : Env) (a b : Bytes) :
    (env.SplitMVCCKey a = none ∨ env.SplitMVCCKey b = none →
      Compare env a b = bytesCompare a b) ∧
    (Compare env a b = -1 ∨ Compare env a b = 0 ∨ Compare env a b = 1) := by
  refine ⟨Compare_of_fail env a b, ?_⟩
  cases ha : env.SplitMVCCKey a with
  | none =>
    rw [Compare_of_fail env a b (Or.inl ha)]
    exact bytesCompare_range a b
  | some pa =>
    cases hb : env.SplitMVCCKey b with
    | none =>
      rw [Compare_of_fail env a b (Or.inr hb)]
      exact bytesCompare_range a b
    | some pb =>
      obtain ⟨kA, tA⟩ := pa
      obtain ⟨kB, tB⟩ := pb
      rw [Compare_of_split env a b kA tA kB tB ha hb]
      split_ifs
      · exact bytesCompare_range kA kB
      · simp
      · simp
      · simp
      · exact bytesCompare_range tB tA


theorem littleEndianUint64_low (tag : Byte) (seq : Bytes) :
    littleEndianUint64 (tag :: seq) % 256 = tag.val := by
  simp [littleEndianUint64, Nat.add_mul_mod_self_left, Nat.mod_eq_of_lt tag.isLt]

theorem Next_exhausted (env : Env) (r : sstIterator) (it : Cursor)
    (hit : r.iter = some it) (hrest : it.rest = []) :
    r.Next env = some { r with iter := some { it with cur := none }, valid := false } := by
  simp [sstIterator.Next, hit, Cursor.Next, hrest]

theorem Next_decodes (env : Env) (r : sstIterator) (it : Cursor) (e : Bytes × Bytes)
    (tl : List (Bytes × Bytes)) (k : MVCCKey)
    (hit : r.iter = some it) (hrest : it.rest = e :: tl) (hk : env.decodesTo r.verify e k) :
    r.Next env = some (r.onEntry it e tl k) := by
  obtain ⟨hlen, htag, hdec, hver⟩ := hk
  have hlen2 : ¬ e.1.length < 8 := by omega
  cases hv : r.verify with
  | false =>
    simp [sstIterator.Next, sstIterator.onEntry, hit, Cursor.Next, hrest, Cursor.Key, hlen2,
      htag, hdec, hv]
  | true =>
    have := hver hv
    simp [sstIterator.Next, sstIterator.onEntry, hit, Cursor.Next, hrest, Cursor.Key,
      Cursor.Value, hlen2, htag, hdec, hv, this]

/-- C6: when the next entry of the cursor is the encoded key of `k` followed by
an 8-byte trailer whose low byte is the plain-value tag, with value `v`, verify
is off and the codec decodes what it encoded, `Next` leaves the iterator valid
without error, on the key `k` and the value `v`. -/
theorem Next_round_trip (env : Env) (r : sstIterator) (it : Cursor) (k : MVCCKey) (v : Bytes)
    (tag : Byte) (seq : Bytes) (tl : List (Bytes × Bytes))
    (hit : r.iter = some it)
    (hrest : it.rest = (env.EncodeKey k ++ tag :: seq, v) :: tl)
    (hseq : seq.length = 7) (htag : tag.val = env.BatchTypeValue)
    (hverify : r.verify = false)
    (hcodec : env.DecodeKey (env.EncodeKey k) = Except.ok (k.Key, k.Timestamp)) :
    ∃ r1, r.Next env = some r1 ∧ r1.Valid = (true, none) ∧ r1.UnsafeKey = k ∧
      r1.UnsafeValue = some v := by
  have hk : env.decodesTo r.verify (env.EncodeKey k ++ tag :: seq, v) k := by
    refine ⟨?_, ?_, ?_, ?_⟩
    · simp [hseq]
    · have : (env.EncodeKey k ++ tag :: seq).length - 8 = (env.EncodeKey k).length := by
        simp [hseq]
      simp only [this, List.drop_left]
      rw [littleEndianUint64_low, htag]
    · have : (env.EncodeKey k ++ tag :: seq).length - 8 = (env.EncodeKey k).length := by
        simp [hseq]
      simp only [this, List.take_left]
      exact hcodec
    · intro h
      rw [hverify] at h
      cases h
  refine ⟨_, Next_decodes env r it _ tl k hit hrest hk, ?_, ?_, ?_⟩
  · simp [sstIterator.Valid, sstIterator.onEntry]
  · simp [sstIterator.UnsafeKey, sstIterator.onEntry]
  · simp [sstIterator.UnsafeValue, Cursor.Value, sstIterator.onEntry]


theorem nextKeyLoop_of_not_sameKey (env : Env) (fuel : Nat) (s : sstIterator)
    (h : s.sameKey = false) : sstIterator.nextKeyLoop env fuel s = some s := by
  cases fuel with
  | zero => rfl
  | succ n => simp [sstIterator.nextKeyLoop, h]

theorem entryUserKey_of_decodesTo (env : Env) (verify : Bool) (e : Bytes × Bytes) (k : MVCCKey)
    (hk : env.decodesTo verify e k) : env.entryUserKey e = some k.Key := by
  obtain ⟨_, _, hdec, _⟩ := hk
  simp [Env.entryUserKey, hdec]

theorem nextKey_scan (env : Env) (K : Bytes) :
    ∀ (rest : List (Bytes × Bytes)) (s : sstIterator) (it : Cursor) (fuel : Nat),
      s.iter = some it → it.rest = rest → s.nextKeyStart = K → s.err = none →
      (∀ e ∈ rest, ∃ k, env.decodesTo s.verify e k) → rest.length ≤ fuel →
      ∃ s1, (match s.Next env with
              | none => none
              | some s2 => sstIterator.nextKeyLoop env fuel s2) = some s1 ∧
        (rest.dropWhile (fun e => decide (env.entryUserKey e = some K)) = [] →
          s1.Valid = (false, none)) ∧
        (∀ e tl, rest.dropWhile (fun e => decide (env.entryUserKey e = some K)) = e :: tl →
          s1.iter = some { it with rest := tl, cur := some e } ∧ s1.Valid = (true, none) ∧
          env.decodesTo s.verify e s1.UnsafeKey ∧ s1.UnsafeKey.Key ≠ K ∧
          s1.UnsafeValue = some e.2) := by
  intro rest
  induction rest with
  | nil =>
    intro s it fuel hit hrest _ herr _ _
    rw [Next_exhausted env s it hit hrest]
    refine ⟨_, nextKeyLoop_of_not_sameKey env fuel _ (by simp [sstIterator.sameKey]), ?_, ?_⟩
    · intro _
      simp [sstIterator.Valid, herr]
    · intro e tl h
      simp at h
  | cons e tl ih =>
    intro s it fuel hit hrest hstart herr hwf hfuel
    obtain ⟨k, hk⟩ := hwf e (List.mem_cons_self e tl)
    rw [Next_decodes env s it e tl k hit hrest hk]
    have huk := entryUserKey_of_decodesTo env s.verify e k hk
    cases fuel with
    | zero => simp at hfuel
    | succ n =>
      by_cases hK : k.Key = K
      · have hsame : (s.onEntry it e tl k).sameKey = true := by
          simp [sstIterator.sameKey, sstIterator.onEntry, bytesEqual, hstart, hK]
        simp only [sstIterator.nextKeyLoop, hsame, if_true]
        have hdrop : (e :: tl).dropWhile (fun e => decide (env.entryUserKey e = some K)) =
            tl.dropWhile (fun e => decide (env.entryUserKey e = some K)) := by
          simp [List.dropWhile, huk, hK]
        rw [hdrop]
        obtain ⟨s1, hs1, hnil, hcons⟩ := ih (s.onEntry it e tl k)
          { it with rest := tl, cur := some e } n rfl rfl hstart rfl
          (fun x hx => hwf x (List.mem_cons_of_mem e hx))
          (by simp at hfuel; omega)
        exact ⟨s1, hs1, hnil, fun e1 tl1 h1 => hcons e1 tl1 h1⟩
      · have hsame : (s.onEntry it e tl k).sameKey = false := by
          simp only [sstIterator.sameKey, sstIterator.onEntry, bytesEqual, hstart]
          simp
          exact fun h => hK h.symm
        have hdrop : (e :: tl).dropWhile (fun e => decide (env.entryUserKey e = some K)) =
            e :: tl := by
          simp [List.dropWhile, huk, hK]
        rw [hdrop]
        refine ⟨_, nextKeyLoop_of_not_sameKey env _ _ hsame, ?_, ?_⟩
        · intro h
          simp at h
        · intro e1 tl1 h1
          simp only [List.cons.injEq] at h1
          obtain ⟨rfl, rfl⟩ := h1
          refine ⟨rfl, ?_, ?_, ?_, ?_⟩
          · simp [sstIterator.Valid, sstIterator.onEntry]
          · simpa [sstIterator.UnsafeKey, sstIterator.onEntry] using hk
          · simpa [sstIterator.UnsafeKey, sstIterator.onEntry] using hK
          · simp [sstIterator.UnsafeValue, Cursor.Value, sstIterator.onEntry]

/-- C9: from a valid position on user key K, with every entry ahead of the cursor
a well-formed plain-value entry, `NextKey` returns; when every entry ahead decodes
to user key K the iterator ends invalid without error, and otherwise the cursor
rests on the first entry ahead whose user key is not K, valid, without error, on
that entry's decoded key and value. -/
theorem NextKey_lands (env : Env) (r : sstIterator) (it : Cursor)
    (hit : r.iter = some it) (hvalid : r.Valid = (true, none))
    (hwf : ∀ e ∈ it.rest, ∃ k, env.decodesTo r.verify e k) :
    ∃ r1, r.NextKey env = some r1 ∧
      (it.rest.dropWhile (fun e => decide (env.entryUserKey e = some r.UnsafeKey.Key)) = [] →
        r1.Valid = (false, none)) ∧
      (∀ e tl,
        it.rest.dropWhile (fun e => decide (env.entryUserKey e = some r.UnsafeKey.Key))
          = e :: tl →
        r1.iter = some { it with rest := tl, cur := some e } ∧ r1.Valid = (true, none) ∧
        env.decodesTo r.verify e r1.UnsafeKey ∧ r1.UnsafeKey.Key ≠ r.UnsafeKey.Key ∧
        r1.UnsafeValue = some e.2) := by
  have hv : r.valid = true ∧ r.err = none := by
    simp only [sstIterator.Valid, Prod.mk.injEq] at hvalid
    obtain ⟨h1, h2⟩ := hvalid
    rw [h2] at h1
    exact ⟨by simpa using h1, h2⟩
  have := nextKey_scan env r.mvccKey.Key it.rest
    { r with nextKeyStart := r.mvccKey.Key } it (r.ahead + 1) hit rfl rfl hv.2 hwf
    (by simp [sstIterator.ahead, hit])
  simpa [sstIterator.NextKey, hv.1, sstIterator.UnsafeKey] using this


theorem Next_advances (env : Env) (r : sstIterator) (it : Cursor) (e : Bytes × Bytes)
    (tl : List (Bytes × Bytes)) (hit : r.iter = some it) (hrest : it.rest = e :: tl) :
    ∃ r1, r.Next env = some r1 ∧ r1.iter = some { it with rest := tl, cur := some e } ∧
      r1.valid = true := by
  simp only [sstIterator.Next, hit, Cursor.Next, hrest]
  repeat' split
  all_goals exact ⟨_, rfl, rfl, rfl⟩

theorem Next_frame (env : Env) (r : sstIterator) (hit : r.iter.isSome) :
    ∃ r1, r.Next env = some r1 ∧ r1.iter.isSome ∧ r1.ahead ≤ r.ahead ∧
      (r1.ahead = r.ahead → r1.err = r.err) := by
  obtain ⟨it, hit⟩ := Option.isSome_iff_exists.1 hit
  cases hrest : it.rest with
  | nil =>
    refine ⟨_, Next_exhausted env r it hit hrest, ?_, ?_, ?_⟩
    · simp
    · simp [sstIterator.ahead, hit, hrest]
    · intro _
      rfl
  | cons e tl =>
    obtain ⟨r1, h1, h2, _⟩ := Next_advances env r it e tl hit hrest
    refine ⟨r1, h1, ?_, ?_, ?_⟩
    · simp [h2]
    · simp [sstIterator.ahead, hit, hrest, h2]
    · intro h
      simp [sstIterator.ahead, hit, hrest, h2] at h

theorem nextKeyLoop_frame (env : Env) :
    ∀ (fuel : Nat) (r : sstIterator), r.iter.isSome →
      ∃ r1, sstIterator.nextKeyLoop env fuel r = some r1 ∧ r1.iter.isSome ∧
        r1.ahead ≤ r.ahead ∧ (r1.ahead = r.ahead → r1.err = r.err) := by
  intro fuel
  induction fuel with
  | zero =>
    intro r hit
    exact ⟨r, rfl, hit, le_refl _, fun _ => rfl⟩
  | succ n ih =>
    intro r hit
    by_cases hs : r.sameKey = true
    · obtain ⟨r1, h1, hi1, hle1, he1⟩ := Next_frame env r hit
      obtain ⟨r2, h2, hi2, hle2, he2⟩ := ih r1 hi1
      refine ⟨r2, ?_, hi2, le_trans hle2 hle1, ?_⟩
      · simp [sstIterator.nextKeyLoop, hs, h1, h2]
      · intro h
        have ha : r1.ahead = r.ahead := by omega
        rw [he2 (by omega), he1 ha]
    · refine ⟨r, ?_, hit, le_refl _, fun _ => rfl⟩
      simp [sstIterator.nextKeyLoop, hs]

theorem NextKey_frame (env : Env) (r : sstIterator) (hit : r.iter.isSome) :
    ∃ r1, r.NextKey env = some r1 ∧ r1.iter.isSome ∧ r1.ahead ≤ r.ahead ∧
      (r1.ahead = r.ahead → r1.err = r.err) := by
  by_cases hv : r.valid = true
  · obtain ⟨r1, h1, hi1, hle1, he1⟩ :=
      Next_frame env { r with nextKeyStart := r.mvccKey.Key } hit
    obtain ⟨r2, h2, hi2, hle2, he2⟩ := nextKeyLoop_frame env (r.ahead + 1) r1 hi1
    refine ⟨r2, ?_, hi2, le_trans hle2 hle1, ?_⟩
    · have h1v := h1
      simp only [hv] at h1v
      simp [sstIterator.NextKey, hv, h1v, h2]
    · intro h
      have hsame : ({ r with nextKeyStart := r.mvccKey.Key } : sstIterator).ahead = r.ahead := rfl
      have ha : r1.ahead = ({ r with nextKeyStart := r.mvccKey.Key } : sstIterator).ahead := by
        omega
      rw [he2 (by omega), he1 ha]
  · refine ⟨r, ?_, hit, le_refl _, fun _ => rfl⟩
    simp [sstIterator.NextKey, hv]

theorem run_frame (env : Env) :
    ∀ (ops : List Op) (r : sstIterator), r.iter.isSome →
      ∃ r1, sstIterator.run env ops r = some r1 ∧ r1.iter.isSome ∧
        r1.ahead ≤ r.ahead ∧ (r1.ahead = r.ahead → r1.err = r.err) := by
  intro ops
  induction ops with
  | nil =>
    intro r hit
    exact ⟨r, rfl, hit, le_refl _, fun _ => rfl⟩
  | cons op ops ih =>
    intro r hit
    have hstep : ∃ r1, r.step env op = some r1 ∧ r1.iter.isSome ∧ r1.ahead ≤ r.ahead ∧
        (r1.ahead = r.ahead → r1.err = r.err) := by
      cases op with
      | next => exact Next_frame env r hit
      | nextKey => exact NextKey_frame env r hit
    obtain ⟨r1, h1, hi1, hle1, he1⟩ := hstep
    obtain ⟨r2, h2, hi2, hle2, he2⟩ := ih r1 hi1
    refine ⟨r2, ?_, hi2, le_trans hle2 hle1, ?_⟩
    · simp [sstIterator.run, h1, h2]
    · intro h
      have ha : r1.ahead = r.ahead := by omega
      rw [he2 (by omega), he1 ha]

theorem sameKey_false_of_not_valid (r : sstIterator) (h : r.valid = false) :
    r.sameKey = false := by
  simp [sstIterator.sameKey, h]

/-- The bound of `nextKeyLoop` is never what ends the loop: with more passes
allowed than entries ahead of the cursor, the loop returns a state in which its
guard is false. -/
theorem nextKeyLoop_exits (env : Env) :
    ∀ (fuel : Nat) (r : sstIterator), r.iter.isSome → r.ahead < fuel →
      ∃ r1, sstIterator.nextKeyLoop env fuel r = some r1 ∧ r1.sameKey = false := by
  intro fuel
  induction fuel with
  | zero =>
    intro r _ h
    omega
  | succ n ih =>
    intro r hit hfuel
    by_cases hs : r.sameKey = true
    · obtain ⟨it, hit1⟩ := Option.isSome_iff_exists.1 hit
      cases hrest : it.rest with
      | nil =>
        refine ⟨_, ?_, sameKey_false_of_not_valid
          { r with iter := some { it with cur := none }, valid := false } rfl⟩
        simp only [sstIterator.nextKeyLoop, hs, if_true, Next_exhausted env r it hit1 hrest]
        exact nextKeyLoop_of_not_sameKey env n _ (sameKey_false_of_not_valid _ rfl)
      | cons e tl =>
        obtain ⟨r1, h1, h2, _⟩ := Next_advances env r it e tl hit1 hrest
        have ha : r1.ahead < n := by
          simp [sstIterator.ahead, hit1, hrest] at hfuel
          simp [sstIterator.ahead, h2]
          omega
        obtain ⟨r2, h3, h4⟩ := ih r1 (by simp [h2]) ha
        exact ⟨r2, by simp [sstIterator.nextKeyLoop, hs, h1, h3], h4⟩
    · refine ⟨r, by simp [sstIterator.nextKeyLoop, hs], by simpa using hs⟩

/-- From a position with the validity flag set and a cursor open, `NextKey`
returns, and in the state it returns the guard of its loop is false: the loop of
line 160 has run to its own end. -/
theorem NextKey_exits (env : Env) (r : sstIterator) (hit : r.iter.isSome)
    (hv : r.valid = true) : ∃ r1, r.NextKey env = some r1 ∧ r1.sameKey = false := by
  obtain ⟨r1, h1, hi1, hle1, _⟩ := Next_frame env { r with nextKeyStart := r.mvccKey.Key } hit
  have hsame : ({ r with nextKeyStart := r.mvccKey.Key } : sstIterator).ahead = r.ahead := rfl
  obtain ⟨r2, h2, h3⟩ := nextKeyLoop_exits env (r.ahead + 1) r1 hi1 (by omega)
  have h1v := h1
  simp only [hv] at h1v
  exact ⟨r2, by simp [sstIterator.NextKey, hv, h1v, h2], h3⟩

/-- C7 (amended): once an error is recorded on an iterator with an open cursor,
every sequence of `Next` and `NextKey` calls returns, never moves the cursor
backwards, and `Valid` keeps returning false with that same error for as long as
no call has moved the cursor onto a further entry; in particular for ever once the
cursor is exhausted. -/
theorem error_kept_until_cursor_moves (env : Env) (r : sstIterator) (e : Error)
    (ops : List Op) (hit : r.iter.isSome) (herr : r.err = some e) :
    ∃ r1, r.run env ops = some r1 ∧ r1.ahead ≤ r.ahead ∧
      (r1.ahead = r.ahead → r1.Valid = (false, some e)) ∧
      (r.ahead = 0 → r1.Valid = (false, some e)) := by
  obtain ⟨r1, h1, _, hle, he⟩ := run_frame env ops r hit
  have hval : r1.ahead = r.ahead → r1.Valid = (false, some e) := by
    intro h
    simp [sstIterator.Valid, he h, herr]
  exact ⟨r1, h1, hle, hval, fun h0 => hval (by omega)⟩

/-- C10 (amended): `NextKey` is a no-op whenever the validity flag of the iterator
is false (end of table, or no `Seek` yet): it returns the very same state, cursor,
decoded key, reuse buffer and error included. -/
theorem NextKey_noop_of_not_valid (env : Env) (r : sstIterator) (h : r.valid = false) :
    r.NextKey env = some r := by
  simp [sstIterator.NextKey, h]


/-- C6 (witness): the entry of A at wall time 5 with value 07, in the MVCC layout. -/
theorem Next_round_trip_witness :
    ∃ r1, stateBeforeA5.Next env0 = some r1 ∧ r1.Valid = (true, none) ∧
      r1.UnsafeKey = keyAt 65 5 ∧ r1.UnsafeValue = some [7] :=
  Next_round_trip env0 stateBeforeA5
    { rest := [entryOf (keyAt 65 5) [7]], cur := none, closeErr := none }
    (keyAt 65 5) [7] 1 [0, 0, 0, 0, 0, 0, 0] [] (by decide) (by decide) (by decide) (by decide)
    (by decide) (by rfl)

/-- C7 (witness): after the short raw key 01 02 03 at the end of a table, the
calls Next, NextKey, Next leave `Valid` at false with the recorded error. -/
theorem error_kept_until_cursor_moves_witness :
    ∃ r1, stateShortAtEnd.run env0 [Op.next, Op.nextKey, Op.next] = some r1 ∧
      r1.Valid = (false, some (Error.invalidInternalKey [1, 2, 3])) :=
  match error_kept_until_cursor_moves env0 stateShortAtEnd (Error.invalidInternalKey [1, 2, 3])
      [Op.next, Op.nextKey, Op.next] (by decide) (by decide) with
  | ⟨r1, h1, _, _, h4⟩ => ⟨r1, h1, h4 (by decide)⟩

/-- C7 (counterexample): on a table holding a 3-byte raw key and then a good
entry, `Seek` records the short-key error and `Valid` returns it; one `Next` later
`Valid` returns true with no error. -/
theorem error_not_sticky :
    Option.map sstIterator.Valid ((newIterator tableShortThenGood false).Seek env0 keyMin) =
      some (false, some (Error.invalidInternalKey [1, 2, 3])) ∧
    Option.map sstIterator.Valid
      (((newIterator tableShortThenGood false).Seek env0 keyMin).bind (sstIterator.Next env0)) =
      some (true, none) := by
  decide

set_option maxRecDepth 20000 in
/-- C8 (failing input): the table holds the single entry A at wall time 5; `Seek`
to A at wall time 3 leaves the iterator valid on A at wall time 5, whose encoded
key is below the encoded target under `Compare`. -/
theorem Seek_lands_below_target :
    Option.map sstIterator.Valid ((newIterator tableA5 false).Seek env0 (keyAt 65 3)) =
      some (true, none) ∧
    Option.map sstIterator.UnsafeKey ((newIterator tableA5 false).Seek env0 (keyAt 65 3)) =
      some (keyAt 65 5) ∧
    Compare env0 (env0.EncodeKey (keyAt 65 5)) (env0.EncodeKey (keyAt 65 3)) < 0 ∧
    0 ≤ Compare env0 (entryOf (keyAt 65 5) [7]).1 (env0.EncodeKey (keyAt 65 3)) := by
  refine ⟨by decide, by decide, by decide, by decide⟩

set_option maxRecDepth 20000 in
/-- C9 (witness): on the table A at 3, A at 2, A at 1, B at 1, `Seek` to A at 3
stands on the first entry and one `NextKey` lands on B at 1; on the table without
B the same calls end invalid without error. -/
theorem NextKey_lands_witness :
    (newIterator tableAAAB false).Seek env0 (keyAt 65 3) = some stateOnA3 ∧
    (∃ r1, stateOnA3.NextKey env0 = some r1 ∧ r1.Valid = (true, none) ∧
      r1.UnsafeKey.Key ≠ [65] ∧ r1.UnsafeValue = some [9]) ∧
    Option.map sstIterator.UnsafeKey (stateOnA3.NextKey env0) = some (keyAt 66 1) ∧
    Option.map sstIterator.Valid
      (((newIterator tableAAA false).Seek env0 (keyAt 65 3)).bind (sstIterator.NextKey env0)) =
      some (false, none) :=
  ⟨by decide,
    match NextKey_lands env0 stateOnA3
        { rest := [entryOf (keyAt 65 2) [2], entryOf (keyAt 65 1) [1], entryOf (keyAt 66 1) [9]],
          cur := some (entryOf (keyAt 65 3) [3]), closeErr := none }
        (by decide) (by decide)
        (by
          intro e he
          simp only [List.mem_cons, List.mem_singleton, List.not_mem_nil, or_false] at he
          rcases he with rfl | rfl | rfl
          · exact ⟨keyAt 65 2, by decide, by decide, by rfl, by decide⟩
          · exact ⟨keyAt 65 1, by decide, by decide, by rfl, by decide⟩
          · exact ⟨keyAt 66 1, by decide, by decide, by rfl, by decide⟩) with
    | ⟨r1, h1, _, hcons⟩ =>
      ⟨r1, h1, (hcons (entryOf (keyAt 66 1) [9]) [] (by decide)).2.1,
        (hcons (entryOf (keyAt 66 1) [9]) [] (by decide)).2.2.2.1,
        (hcons (entryOf (keyAt 66 1) [9]) [] (by decide)).2.2.2.2⟩,
    by decide, by decide⟩

/-- C10 (witness): a fresh iterator, not yet positioned, is left as it is. -/
theorem NextKey_noop_of_not_valid_witness :
    (newIterator tableAAA false).NextKey env0 = some (newIterator tableAAA false) :=
  NextKey_noop_of_not_valid env0 (newIterator tableAAA false) (by decide)

/-- C10 (counterexample): on a table of two 3-byte raw keys, `Seek` records the
short-key error of the first, so `Valid` returns false; `NextKey` then moves the
cursor onto the second entry and replaces the error. -/
theorem NextKey_moves_after_error :
    Option.map sstIterator.Valid ((newIterator tableShortShort false).Seek env0 keyMin) =
      some (false, some (Error.invalidInternalKey [1, 2, 3])) ∧
    Option.map (fun r => r.iter.map Cursor.Key)
      ((newIterator tableShortShort false).Seek env0 keyMin) = some (some [1, 2, 3]) ∧
    Option.map (fun r => r.iter.map Cursor.Key)
      (((newIterator tableShortShort false).Seek env0 keyMin).bind (sstIterator.NextKey env0)) =
      some (some [4, 5, 6]) ∧
    Option.map sstIterator.Valid
      (((newIterator tableShortShort false).Seek env0 keyMin).bind (sstIterator.NextKey env0)) =
      some (false, some (Error.invalidInternalKey [4, 5, 6])) := by
  decide

/-! ## Decode failures (C11, C12, C13) -/

/-- C11: when `Next` moves the cursor onto an entry whose raw key has fewer than
8 bytes, it returns (no panic), with nothing changed but the cursor, the validity
flag and the error, and `Valid` then returns false with the invalid-key error. -/
theorem Next_short_key (env : Env) (r : sstIterator) (it : Cursor) (e : Bytes × Bytes)
    (tl : List (Bytes × Bytes)) (hit : r.iter = some it) (hrest : it.rest = e :: tl)
    (hshort : e.1.length < 8) :
    r.Next env = some (r.failedOn it e tl (Error.invalidInternalKey e.1)) ∧
    ∃ r1, r.Next env = some r1 ∧ r1.Valid = (false, some (Error.invalidInternalKey e.1)) := by
  have h : r.Next env = some (r.failedOn it e tl (Error.invalidInternalKey e.1)) := by
    simp [sstIterator.Next, sstIterator.failedOn, hit, Cursor.Next, hrest, Cursor.Key, hshort]
  exact ⟨h, _, h, by simp [sstIterator.Valid, sstIterator.failedOn]⟩

/-- C11 (witness): the 3-byte raw key 01 02 03. -/
theorem Next_short_key_witness :
    ∃ r1, (cursorBefore [([1, 2, 3], [])]).Next env0 = some r1 ∧
      r1.Valid = (false, some (Error.invalidInternalKey [1, 2, 3])) :=
  (Next_short_key env0 (cursorBefore [([1, 2, 3], [])])
    { rest := [([1, 2, 3], [])], cur := none, closeErr := none } ([1, 2, 3], []) []
    (by decide) (by decide) (by decide)).2

theorem drop_last8 (raw : Bytes) (hlen : 8 ≤ raw.length) :
    ∃ tag : Byte, raw[raw.length - 8]? = some tag ∧
      raw.drop (raw.length - 8) = tag :: raw.drop (raw.length - 8 + 1) := by
  have hlt : raw.length - 8 < raw.length := by omega
  refine ⟨raw[raw.length - 8], ?_, ?_⟩
  · exact List.getElem?_eq_getElem hlt
  · exact List.drop_eq_getElem_cons hlt

/-- C12: for a raw key of n bytes, n at least 8, the value-type tag that `Next`
compares is the byte at index n-8; a tag other than the plain-value tag makes
`Valid` return false with the unsupported-type error; with the plain-value tag
the check passes and the outcome is that of the key decoder on the key part. -/
theorem Next_value_type (env : Env) (r : sstIterator) (it : Cursor) (e : Bytes × Bytes)
    (tl : List (Bytes × Bytes)) (hit : r.iter = some it) (hrest : it.rest = e :: tl)
    (hlen : 8 ≤ e.1.length) :
    ∃ tag : Byte, e.1[e.1.length - 8]? = some tag ∧
      littleEndianUint64 (e.1.drop (e.1.length - 8)) % 256 = tag.val ∧
      (tag.val ≠ env.BatchTypeValue →
        ∃ r1, r.Next env = some r1 ∧
          r1.Valid = (false, some (Error.valueTypeNotSupported tag.val))) ∧
      (tag.val = env.BatchTypeValue →
        ∃ r1, r.Next env = some r1 ∧
          (∀ k ts, env.DecodeKey (e.1.take (e.1.length - 8)) = Except.ok (k, ts) →
            r1.UnsafeKey = { Key := k, Timestamp := ts } ∧
            r1.err = if r.verify then env.Verify e.2 k else none) ∧
          (∀ cause, env.DecodeKey (e.1.take (e.1.length - 8)) = Except.error cause →
            r1.err = some (Error.decodingKey cause (e.1.take (e.1.length - 8))))) := by
  obtain ⟨tag, hidx, hdrop⟩ := drop_last8 e.1 hlen
  have hlow : littleEndianUint64 (e.1.drop (e.1.length - 8)) % 256 = tag.val := by
    rw [hdrop, littleEndianUint64_low]
  have hlen2 : ¬ e.1.length < 8 := by omega
  refine ⟨tag, hidx, hlow, ?_, ?_⟩
  · intro hne
    refine ⟨r.failedOn it e tl (Error.valueTypeNotSupported tag.val), ?_,
      by simp [sstIterator.Valid, sstIterator.failedOn]⟩
    simp [sstIterator.Next, sstIterator.failedOn, hit, Cursor.Next, hrest, Cursor.Key, hlen2,
      hlow, hne]
  · intro heq
    cases hdec : env.DecodeKey (e.1.take (e.1.length - 8)) with
    | error cause =>
      refine ⟨r.failedOn it e tl (Error.decodingKey cause (e.1.take (e.1.length - 8))),
        ?_, ?_, ?_⟩
      · simp [sstIterator.Next, sstIterator.failedOn, hit, Cursor.Next, hrest, Cursor.Key,
          hlen2, hlow, heq, hdec]
      · intro k ts h
        cases h
      · intro c h
        cases h
        rfl
    | ok p =>
      obtain ⟨k, ts⟩ := p
      cases hv : r.verify with
      | false =>
        refine ⟨r.onEntry it e tl { Key := k, Timestamp := ts }, ?_, ?_, ?_⟩
        · simp [sstIterator.Next, sstIterator.onEntry, hit, Cursor.Next, hrest, Cursor.Key,
            hlen2, hlow, heq, hdec, hv]
        · intro k1 ts1 h
          cases h
          exact ⟨rfl, by simp [sstIterator.onEntry]⟩
        · intro c h
          cases h
      | true =>
        refine ⟨{ r.onEntry it e tl { Key := k, Timestamp := ts } with
          err := env.Verify e.2 k }, ?_, ?_, ?_⟩
        · simp [sstIterator.Next, sstIterator.onEntry, hit, Cursor.Next, hrest, Cursor.Key,
            Cursor.Value, hlen2, hlow, heq, hdec, hv]
        · intro k1 ts1 h
          cases h
          exact ⟨rfl, by simp⟩
        · intro c h
          cases h

/-- C12 (witness): the raw key of A without timestamp followed by a trailer whose
low byte is 2, not the plain-value tag 1 of the instance. -/
theorem Next_value_type_witness :
    ∃ r1, (cursorBefore [([65, 0, 2, 0, 0, 0, 0, 0, 0, 0], [])]).Next env0 = some r1 ∧
      r1.Valid = (false, some (Error.valueTypeNotSupported 2)) := by
  obtain ⟨tag, hidx, _, hbad, _⟩ :=
    Next_value_type env0 (cursorBefore [([65, 0, 2, 0, 0, 0, 0, 0, 0, 0], [])])
      { rest := [([65, 0, 2, 0, 0, 0, 0, 0, 0, 0], [])], cur := none, closeErr := none }
      ([65, 0, 2, 0, 0, 0, 0, 0, 0, 0], []) [] (by decide) (by decide) (by decide)
  have h2 : ([65, 0, 2, 0, 0, 0, 0, 0, 0, 0] : Bytes)[10 - 8]? = some 2 := by decide
  have htag : tag = 2 := Option.some.inj (hidx.symm.trans h2)
  subst htag
  exact hbad (by decide)

/-- C13: when `Next` moves the cursor onto an entry with a raw key of 8 bytes at
least and the plain-value tag, and the key decoder rejects the raw key without
its last 8 bytes, `Next` returns and `Valid` returns false with the decoder's
error wrapped together with exactly that key part. -/
theorem Next_undecodable_key (env : Env) (r : sstIterator) (it : Cursor) (e : Bytes × Bytes)
    (tl : List (Bytes × Bytes)) (cause : Error) (hit : r.iter = some it)
    (hrest : it.rest = e :: tl) (hlen : 8 ≤ e.1.length)
    (htag : littleEndianUint64 (e.1.drop (e.1.length - 8)) % 256 = env.BatchTypeValue)
    (hdec : env.DecodeKey (e.1.take (e.1.length - 8)) = Except.error cause) :
    ∃ r1, r.Next env = some r1 ∧
      r1.Valid = (false, some (Error.decodingKey cause (e.1.take (e.1.length - 8)))) := by
  have hlen2 : ¬ e.1.length < 8 := by omega
  refine ⟨r.failedOn it e tl (Error.decodingKey cause (e.1.take (e.1.length - 8))), ?_,
    by simp [sstIterator.Valid, sstIterator.failedOn]⟩
  simp [sstIterator.Next, sstIterator.failedOn, hit, Cursor.Next, hrest, Cursor.Key, hlen2,
    htag, hdec]

/-- C13 (witness): the key part 09 announces 9 timestamp bytes that are not
there, so the decoder of the instance rejects it. -/
theorem Next_undecodable_key_witness :
    ∃ r1, (cursorBefore [([9, 1, 0, 0, 0, 0, 0, 0, 0], [])]).Next env0 = some r1 ∧
      r1.Valid = (false, some (Error.decodingKey (Error.external "invalid encoded mvcc key")
        (([9, 1, 0, 0, 0, 0, 0, 0, 0] : Bytes).take (9 - 8)))) :=
  Next_undecodable_key env0 (cursorBefore [([9, 1, 0, 0, 0, 0, 0, 0, 0], [])])
    { rest := [([9, 1, 0, 0, 0, 0, 0, 0, 0], [])], cur := none, closeErr := none }
    ([9, 1, 0, 0, 0, 0, 0, 0, 0], []) [] (Error.external "invalid encoded mvcc key")
    (by decide) (by decide) (by decide) (by decide) (by rfl)

/-! ## Verify mode (C14) -/

theorem Seek_of_close_ok (env : Env) (r : sstIterator) (key : MVCCKey)
    (hclose : ∀ it, r.iter = some it → it.Close = none) :
    r.Seek env key = sstIterator.Next env (r.reopened env key) := by
  cases hit : r.iter with
  | none => simp [sstIterator.Seek, sstIterator.reopened, hit]
  | some it =>
    have hc : it.Close = none := hclose it hit
    simp [sstIterator.Seek, sstIterator.reopened, hit, hc, errorsWrap]

theorem Next_verify_fails (env : Env) (r : sstIterator) (it : Cursor) (e : Bytes × Bytes)
    (tl : List (Bytes × Bytes)) (k : MVCCKey) (ev : Error)
    (hit : r.iter = some it) (hrest : it.rest = e :: tl) (hver : r.verify = true)
    (hk : env.decodesTo false e k) (hfail : env.Verify e.2 k.Key = some ev) :
    r.Next env = some { r.onEntry it e tl k with err := some ev } := by
  obtain ⟨hlen, htag, hdec, _⟩ := hk
  have hlen2 : ¬ e.1.length < 8 := by omega
  simp [sstIterator.Next, sstIterator.onEntry, hit, Cursor.Next, hrest, Cursor.Key,
    Cursor.Value, hlen2, htag, hdec, hver, hfail]

theorem verify_scan (env : Env) (bad : Bytes × Bytes) (post : List (Bytes × Bytes))
    (k : MVCCKey) (ev : Error) (hbad : env.decodesTo false bad k)
    (hfail : env.Verify bad.2 k.Key = some ev) :
    ∀ (pre : List (Bytes × Bytes)) (s : sstIterator) (it : Cursor) (i : Nat),
      s.iter = some it → it.rest = pre ++ bad :: post → s.verify = true →
      (∀ e ∈ pre, ∃ k1, env.decodesTo true e k1) → i ≤ pre.length →
      ∃ si, s.run env (List.replicate (i + 1) Op.next) = some si ∧
        (∃ it1, si.iter = some it1 ∧ it1.cur = (pre ++ [bad])[i]?) ∧
        (i < pre.length → si.Valid = (true, none)) ∧
        (i = pre.length → si.Valid = (false, some ev)) := by
  intro pre
  induction pre with
  | nil =>
    intro s it i hit hrest hver _ hi
    have hi0 : i = 0 := by simpa using hi
    subst hi0
    have hN := Next_verify_fails env s it bad post k ev hit (by simpa using hrest) hver hbad hfail
    refine ⟨{ s.onEntry it bad post k with err := some ev },
      by simp [sstIterator.run, sstIterator.step, hN], ?_, ?_, ?_⟩
    · exact ⟨_, rfl, by simp [sstIterator.onEntry]⟩
    · intro h
      simp at h
    · intro _
      simp [sstIterator.Valid, sstIterator.onEntry]
  | cons e pre ih =>
    intro s it i hit hrest hver hwf hi
    obtain ⟨k1, hk1⟩ := hwf e (List.mem_cons_self e pre)
    have hN := Next_decodes env s it e (pre ++ bad :: post) k1 hit (by simpa using hrest)
      (by rw [hver]; exact hk1)
    cases i with
    | zero =>
      refine ⟨s.onEntry it e (pre ++ bad :: post) k1,
        by simp [sstIterator.run, sstIterator.step, hN], ?_, ?_, ?_⟩
      · exact ⟨_, rfl, by simp [sstIterator.onEntry]⟩
      · intro _
        simp [sstIterator.Valid, sstIterator.onEntry]
      · intro h
        simp at h
    | succ j =>
      obtain ⟨si, hrun, ⟨it1, hi1, hcur⟩, hlt, heq⟩ := ih (s.onEntry it e (pre ++ bad :: post) k1)
        { it with rest := pre ++ bad :: post, cur := some e } j rfl rfl
        (by simpa [sstIterator.onEntry] using hver)
        (fun x hx => hwf x (List.mem_cons_of_mem e hx)) (by simpa using hi)
      refine ⟨si, ?_, ⟨it1, hi1, by simpa using hcur⟩, ?_, ?_⟩
      · rw [List.replicate_succ]
        simp only [sstIterator.run, sstIterator.step, hN]
        exact hrun
      · intro h
        exact hlt (by simpa using h)
      · intro h
        exact heq (by simpa using h)

/-- C14: verify is on, the table is `pre`, then `bad`, then `post`, where every
entry of `pre` is a well-formed plain-value entry whose payload passes the check
and `bad` is one whose payload fails it with `ev`; after `Seek` to a target not
above the first entry and `i` calls of `Next`, `i` at most the length of `pre`,
the cursor is on entry `i` of the table, `Valid` returns true without error for
every `i` before `bad`, and false with `ev` at `bad`. -/
theorem verify_error_at_first_bad_payload (env : Env) (r : sstIterator) (target : MVCCKey)
    (pre : List (Bytes × Bytes)) (bad : Bytes × Bytes) (post : List (Bytes × Bytes))
    (k : MVCCKey) (ev : Error) (i : Nat)
    (hver : r.verify = true) (hclose : ∀ it, r.iter = some it → it.Close = none)
    (htable : r.sst.entries = pre ++ bad :: post)
    (hstart : ∀ e, (pre ++ bad :: post).head? = some e →
      0 ≤ Compare env e.1 (env.EncodeKey target))
    (hpre : ∀ e ∈ pre, ∃ k1, env.decodesTo true e k1)
    (hbad : env.decodesTo false bad k) (hfail : env.Verify bad.2 k.Key = some ev)
    (hi : i ≤ pre.length) :
    ∃ ri, (r.Seek env target).bind (sstIterator.run env (List.replicate i Op.next)) = some ri ∧
      (∃ it1, ri.iter = some it1 ∧ it1.cur = (pre ++ [bad])[i]?) ∧
      (i < pre.length → ri.Valid = (true, none)) ∧
      (i = pre.length → ri.Valid = (false, some ev)) := by
  have hfind : (r.sst.Find env (env.EncodeKey target)).rest = pre ++ bad :: post := by
    simp only [Reader.Find, htable]
    cases pre with
    | nil =>
      have h0 := hstart bad (by simp)
      simp [List.dropWhile, not_lt.2 h0]
    | cons e pre =>
      have h0 := hstart e (by simp)
      simp [List.dropWhile, not_lt.2 h0]
  obtain ⟨si, hrun, hcur, hlt, heq⟩ := verify_scan env bad post k ev hbad hfail pre
    (r.reopened env target) (r.sst.Find env (env.EncodeKey target)) i rfl hfind
    (by simpa [sstIterator.reopened] using hver) hpre hi
  refine ⟨si, ?_, hcur, hlt, heq⟩
  rw [Seek_of_close_ok env r target hclose]
  rw [List.replicate_succ] at hrun
  simp only [sstIterator.run, sstIterator.step] at hrun
  cases hN : sstIterator.Next env (r.reopened env target) with
  | none => simp [hN] at hrun
  | some r0 =>
    simp only [hN] at hrun
    simpa using hrun

set_option maxRecDepth 20000 in
/-- C14 (witness): on `tableBadThird` with verify on and the payload check
`verifyHeader`, `Seek` and the first `Next` are valid without error, the second
`Next`, which decodes the third entry, gives false with the check's error. -/
theorem verify_error_at_first_bad_payload_witness :
    (∃ r2, ((newIterator tableBadThird true).Seek env1 keyMin).bind
        (sstIterator.run env1 (List.replicate 2 Op.next)) = some r2 ∧
      r2.Valid = (false, some (Error.external "invalid header size"))) ∧
    Option.map sstIterator.Valid ((newIterator tableBadThird true).Seek env1 keyMin) =
      some (true, none) ∧
    Option.map sstIterator.Valid (((newIterator tableBadThird true).Seek env1 keyMin).bind
      (sstIterator.run env1 [Op.next])) = some (true, none) := by
  refine ⟨?_, by decide, by decide⟩
  obtain ⟨r2, h1, _, _, h4⟩ := verify_error_at_first_bad_payload env1
    (newIterator tableBadThird true) keyMin
    [entryOf (keyAt 65 3) [], entryOf (keyAt 65 2) []] (entryOf (keyAt 65 1) [9])
    [entryOf (keyAt 66 1) []] (keyAt 65 1) (Error.external "invalid header size") 2
    (by decide) (by intro it h; cases h) (by decide)
    (by
      intro e he
      have h0 : e = entryOf (keyAt 65 3) [] := by simpa using he.symm
      subst h0
      decide)
    (by
      intro e he
      simp only [List.mem_cons, List.mem_singleton, List.not_mem_nil, or_false] at he
      rcases he with rfl | rfl
      · exact ⟨keyAt 65 3, by decide, by decide, by rfl, by decide⟩
      · exact ⟨keyAt 65 2, by decide, by decide, by rfl, by decide⟩)
    ⟨by decide, by decide, by rfl, by decide⟩ (by decide) (by decide)
  exact ⟨r2, h1, h4 (by decide)⟩

/-! ## Close, end of table, Seek failure, construction (C15, C16, C19, C20) -/

/-- C15: on an iterator that has no error while it has no cursor, after `Close`
the error is the cursor's close error (wrapped) when a cursor is open and its close
fails, whatever the table close does; else the table's close error (wrapped) when
that fails; else nil; and the table close is among the calls made in every case. -/
theorem Close_error (r : sstIterator) (hfresh : r.iter = none → r.err = none) :
    (∀ it e, r.iter = some it → it.Close = some e →
      r.Close.err = some (Error.wrap e "closing sstable iterator")) ∧
    (∀ e, (∀ it, r.iter = some it → it.Close = none) → r.sst.closeErr = some e →
      r.Close.err = some (Error.wrap e "closing sstable")) ∧
    ((∀ it, r.iter = some it → it.Close = none) → r.sst.closeErr = none →
      r.Close.err = none) ∧
    CloseCall.table ∈ r.closeCalls := by
  refine ⟨?_, ?_, ?_, ?_⟩
  · intro it e hit hc
    cases hs : r.sst.closeErr <;> simp [sstIterator.Close, hit, hc, errorsWrap, hs]
  · intro e hclose hs
    cases hit : r.iter with
    | none => simp [sstIterator.Close, hit, hs, errorsWrap, hfresh hit]
    | some it => simp [sstIterator.Close, hit, hs, errorsWrap, hclose it hit]
  · intro hclose hs
    cases hit : r.iter with
    | none => simp [sstIterator.Close, hit, hs, hfresh hit]
    | some it => simp [sstIterator.Close, hit, hs, errorsWrap, hclose it hit]
  · simp [sstIterator.closeCalls]

/-- C15 (witness): cursor and table both fail to close; the cursor's error is
the one kept. -/
theorem Close_error_witness :
    stateBothCloseFail.Close.err =
      some (Error.wrap (Error.external "cursor close") "closing sstable iterator") :=
  (Close_error stateBothCloseFail (by intro h; cases h)).1
    { rest := [], cur := some (entryOf (keyAt 65 5) [7]),
      closeErr := some (Error.external "cursor close") }
    (Error.external "cursor close") (by decide) (by decide)

/-- C16: `Next` on an iterator without error whose cursor is exhausted returns
and leaves `Valid` at false without error; so does `Seek` on a fresh iterator
when every entry of the table is below the target, an empty table included. -/
theorem end_of_table_not_failure (env : Env) :
    (∀ (r : sstIterator) (it : Cursor), r.iter = some it → it.rest = [] → r.err = none →
      ∃ r1, r.Next env = some r1 ∧ r1.Valid = (false, none)) ∧
    (∀ (sst : Reader) (verify : Bool) (target : MVCCKey),
      (∀ e ∈ sst.entries, Compare env e.1 (env.EncodeKey target) < 0) →
      ∃ r1, (newIterator sst verify).Seek env target = some r1 ∧ r1.Valid = (false, none)) := by
  constructor
  · intro r it hit hrest herr
    exact ⟨_, Next_exhausted env r it hit hrest, by simp [sstIterator.Valid, herr]⟩
  · intro sst verify target hall
    have hdrop : sst.entries.dropWhile
        (fun e => decide (Compare env e.1 (env.EncodeKey target) < 0)) = [] := by
      rw [List.dropWhile_eq_nil_iff]
      intro e he
      simpa using hall e he
    rw [Seek_of_close_ok env _ target (by intro it h; cases h)]
    exact ⟨_, Next_exhausted env _ (sst.Find env (env.EncodeKey target)) rfl hdrop,
      by simp [sstIterator.Valid, sstIterator.reopened, newIterator]⟩

/-- C16 (witness): `Seek` on an empty table, and `Seek` to B on a table holding
only A. -/
theorem end_of_table_not_failure_witness :
    (∃ r1, (newIterator (tableOf []) false).Seek env0 keyMin = some r1 ∧
      r1.Valid = (false, none)) ∧
    (∃ r1, (newIterator tableA5 false).Seek env0 (keyAt 66 1) = some r1 ∧
      r1.Valid = (false, none)) :=
  ⟨(end_of_table_not_failure env0).2 (tableOf []) false keyMin (by intro e he; cases he),
    (end_of_table_not_failure env0).2 tableA5 false (keyAt 66 1) (by
      intro e he
      have h0 : e = entryOf (keyAt 65 5) [7] := by simpa [tableA5, tableOf] using he
      subst h0
      decide)⟩

/-- C19: when a cursor is open and its close fails, `Seek` returns the iterator
with that failure (wrapped) as its error and nothing else changed: same cursor,
no decode step; `Valid` then returns false with that error. -/
theorem Seek_close_failure (env : Env) (r : sstIterator) (it : Cursor) (e : Error)
    (key : MVCCKey) (hit : r.iter = some it) (hc : it.Close = some e) :
    r.Seek env key = some { r with err := some (Error.wrap e "resetting sstable iterator") } ∧
    ∃ r1, r.Seek env key = some r1 ∧ r1.iter = some it ∧ r1.mvccKey = r.mvccKey ∧
      r1.Valid = (false, some (Error.wrap e "resetting sstable iterator")) := by
  have h : r.Seek env key =
      some { r with err := some (Error.wrap e "resetting sstable iterator") } := by
    simp [sstIterator.Seek, hit, hc, errorsWrap]
  exact ⟨h, _, h, hit, rfl, by simp [sstIterator.Valid]⟩

/-- C19 (witness): a second `Seek` on an iterator whose open cursor fails to
close. -/
theorem Seek_close_failure_witness :
    ∃ r1, stateBothCloseFail.Seek env0 keyMin = some r1 ∧
      r1.iter = stateBothCloseFail.iter ∧ r1.mvccKey = keyAt 65 5 ∧
      r1.Valid =
        (false, some (Error.wrap (Error.external "cursor close") "resetting sstable iterator")) :=
  (Seek_close_failure env0 stateBothCloseFail
    { rest := [], cur := some (entryOf (keyAt 65 5) [7]),
      closeErr := some (Error.external "cursor close") }
    (Error.external "cursor close") keyMin (by decide) (by decide)).2

theorem NextKey_unpositioned (env : Env) (r : sstIterator) (h : r.valid = false) :
    r.NextKey env = some r := by
  simp [sstIterator.NextKey, h]

theorem run_unpositioned (env : Env) :
    ∀ (ops : List Op) (r r1 : sstIterator), r.iter = none → r.valid = false →
      r.run env ops = some r1 → r1 = r := by
  intro ops
  induction ops with
  | nil =>
    intro r r1 _ _ h
    simpa [sstIterator.run] using h.symm
  | cons op ops ih =>
    intro r r1 hit hv h
    cases op with
    | next => simp [sstIterator.run, sstIterator.step, sstIterator.Next, hit] at h
    | nextKey =>
      simp only [sstIterator.run, sstIterator.step, NextKey_unpositioned env r hv] at h
      exact ih r r1 hit hv h

/-- C20: an iterator returned by either constructor has no cursor and `Valid`
returns false without error; every sequence of `Next` and `NextKey` calls that
returns leaves it exactly so; the on-disk constructor has verify off and the
in-memory constructor has the verify flag it was given. -/
theorem constructors_unpositioned :
    (∀ (fs : FileSystem) (newReader : Bytes → Reader) (path : String) (r : sstIterator),
      NewSSTIterator fs newReader path = Except.ok r →
      r.iter = none ∧ r.Valid = (false, none) ∧ r.verify = false ∧
        ∀ env ops r1, r.run env ops = some r1 → r1 = r) ∧
    (∀ (fs : MemFS) (newReader : Bytes → Reader) (data : Bytes) (verify : Bool)
      (r : sstIterator),
      NewMemSSTIterator fs newReader data verify = Except.ok r →
      r.iter = none ∧ r.Valid = (false, none) ∧ r.verify = verify ∧
        ∀ env ops r1, r.run env ops = some r1 → r1 = r) := by
  constructor
  · intro fs newReader path r h
    unfold NewSSTIterator at h
    cases hopen : fs.Open path with
    | error err => simp [hopen] at h
    | ok file =>
      simp only [hopen, Except.ok.injEq] at h
      subst h
      exact ⟨rfl, rfl, rfl, fun env ops r1 hr => run_unpositioned env ops _ r1 rfl rfl hr⟩
  · intro fs newReader data verify r h
    unfold NewMemSSTIterator at h
    cases h1 : fs.createErr <;> cases h2 : fs.writeErr <;> cases h3 : fs.closeErr <;>
      cases h4 : fs.openErr <;> simp [h1, h2, h3, h4] at h
    subst h
    exact ⟨rfl, rfl, rfl, fun env ops r1 hr => run_unpositioned env ops _ r1 rfl rfl hr⟩

/-- C20 (witness): both constructors succeed on the example stores and return
the fresh iterator over the table read. -/
theorem constructors_unpositioned_witness :
    NewSSTIterator fsOneFile readerA5 "data.sst" = Except.ok (newIterator tableA5 false) ∧
    NewMemSSTIterator memFSOk readerA5 [1, 2, 3] true = Except.ok (newIterator tableA5 true) ∧
    (newIterator tableA5 true).Valid = (false, none) ∧ (newIterator tableA5 true).verify = true :=
  ⟨rfl, rfl,
    (constructors_unpositioned.2 memFSOk readerA5 [1, 2, 3] true (newIterator tableA5 true)
      rfl).2.1,
    (constructors_unpositioned.2 memFSOk readerA5 [1, 2, 3] true (newIterator tableA5 true)
      rfl).2.2.1⟩

/-! ## Valid only at a decoded entry (C17) -/

theorem Next_short_aux (env : Env) (r : sstIterator) (it : Cursor) (e : Bytes × Bytes)
    (tl : List (Bytes × Bytes)) (hit : r.iter = some it) (hrest : it.rest = e :: tl)
    (hshort : e.1.length < 8) :
    r.Next env = some (r.failedOn it e tl (Error.invalidInternalKey e.1)) := by
  simp [sstIterator.Next, sstIterator.failedOn, hit, Cursor.Next, hrest, Cursor.Key, hshort]

theorem Next_valid_decoded (env : Env) (r r1 : sstIterator) (h : r.Next env = some r1)
    (hv : r1.valid = true) (herr : r1.err = none) :
    ∃ it e, r1.iter = some it ∧ it.cur = some e ∧ env.decodesTo r1.verify e r1.mvccKey := by
  cases hit : r.iter with
  | none => simp [sstIterator.Next, hit] at h
  | some it0 =>
    cases hrest : it0.rest with
    | nil =>
      rw [Next_exhausted env r it0 hit hrest] at h
      cases h
      simp at hv
    | cons e tl =>
      by_cases hshort : e.1.length < 8
      · rw [Next_short_aux env r it0 e tl hit hrest hshort] at h
        cases h
        simp [sstIterator.failedOn] at herr
      · have hlen : 8 ≤ e.1.length := by omega
        by_cases htag : littleEndianUint64 (e.1.drop (e.1.length - 8)) % 256 = env.BatchTypeValue
        · cases hdec : env.DecodeKey (e.1.take (e.1.length - 8)) with
          | error cause =>
            have hN : r.Next env = some (r.failedOn it0 e tl
                (Error.decodingKey cause (e.1.take (e.1.length - 8)))) := by
              simp [sstIterator.Next, sstIterator.failedOn, hit, Cursor.Next, hrest, Cursor.Key,
                hshort, htag, hdec]
            rw [hN] at h
            cases h
            simp [sstIterator.failedOn] at herr
          | ok p =>
            obtain ⟨k, ts⟩ := p
            cases hver : r.verify with
            | false =>
              have hk : env.decodesTo r.verify e { Key := k, Timestamp := ts } :=
                ⟨hlen, htag, hdec, by simp [hver]⟩
              rw [Next_decodes env r it0 e tl _ hit hrest hk] at h
              cases h
              exact ⟨_, e, rfl, rfl, by simpa [sstIterator.onEntry] using hk⟩
            | true =>
              have hN : r.Next env = some { r.onEntry it0 e tl { Key := k, Timestamp := ts }
                  with err := env.Verify e.2 k } := by
                simp [sstIterator.Next, sstIterator.onEntry, hit, Cursor.Next, hrest,
                  Cursor.Key, Cursor.Value, hshort, htag, hdec, hver]
              rw [hN] at h
              cases h
              refine ⟨_, e, rfl, rfl, hlen, htag, hdec, ?_⟩
              intro _
              simpa using herr
        · have hN : r.Next env = some (r.failedOn it0 e tl (Error.valueTypeNotSupported
              (littleEndianUint64 (e.1.drop (e.1.length - 8)) % 256))) := by
            simp [sstIterator.Next, sstIterator.failedOn, hit, Cursor.Next, hrest, Cursor.Key,
              hshort, htag]
          rw [hN] at h
          cases h
          simp [sstIterator.failedOn] at herr

theorem nextKeyLoop_valid_decoded (env : Env) :
    ∀ (fuel : Nat) (r r1 : sstIterator),
      (r.valid = true → r.err = none →
        ∃ it e, r.iter = some it ∧ it.cur = some e ∧ env.decodesTo r.verify e r.mvccKey) →
      sstIterator.nextKeyLoop env fuel r = some r1 → r1.valid = true → r1.err = none →
      ∃ it e, r1.iter = some it ∧ it.cur = some e ∧ env.decodesTo r1.verify e r1.mvccKey := by
  intro fuel
  induction fuel with
  | zero =>
    intro r r1 hP h
    simp only [sstIterator.nextKeyLoop, Option.some.injEq] at h
    subst h
    exact hP
  | succ n ih =>
    intro r r1 hP h
    by_cases hs : r.sameKey = true
    · cases hN : r.Next env with
      | none => simp [sstIterator.nextKeyLoop, hs, hN] at h
      | some r2 =>
        simp only [sstIterator.nextKeyLoop, hs, if_true, hN] at h
        exact ih r2 r1 (Next_valid_decoded env r r2 hN) h
    · simp only [sstIterator.nextKeyLoop, hs, Bool.false_eq_true, if_false,
        Option.some.injEq] at h
      subst h
      exact hP

theorem Reachable_valid_decoded (env : Env) (r : sstIterator) (h : Reachable env r) :
    r.valid = true → r.err = none →
      ∃ it e, r.iter = some it ∧ it.cur = some e ∧ env.decodesTo r.verify e r.mvccKey := by
  induction h with
  | fresh sst verify =>
    intro hv
    simp [newIterator] at hv
  | seek r r1 key _ hs ih =>
    cases hit : r.iter with
    | none =>
      simp only [sstIterator.Seek, hit] at hs
      exact Next_valid_decoded env _ r1 hs
    | some it =>
      cases hc : it.Close with
      | none =>
        simp only [sstIterator.Seek, hit, hc, errorsWrap, ne_eq, not_true_eq_false,
          if_false] at hs
        exact Next_valid_decoded env _ r1 hs
      | some e =>
        simp only [sstIterator.Seek, hit, hc, errorsWrap, ne_eq, reduceCtorEq,
          not_false_eq_true, if_true, Option.some.injEq] at hs
        subst hs
        intro _ herr
        simp at herr
  | next r r1 _ hn _ => exact Next_valid_decoded env r r1 hn
  | nextKey r r1 _ hn ih =>
    by_cases hv : r.valid = true
    · cases hN : sstIterator.Next env { r with nextKeyStart := r.mvccKey.Key } with
      | none =>
        have hNv := hN
        simp only [hv] at hNv
        simp [sstIterator.NextKey, hv, hNv] at hn
      | some r2 =>
        have hNv := hN
        simp only [hv] at hNv
        simp only [sstIterator.NextKey, hv, Bool.not_true, Bool.false_eq_true, if_false,
          hNv] at hn
        exact nextKeyLoop_valid_decoded env _ r2 r1 (Next_valid_decoded env _ r2 hN) hn
    · have hv2 : r.valid = false := by simpa using hv
      rw [NextKey_unpositioned env r hv2] at hn
      cases hn
      exact ih

/-- C17: in every state reached from construction by `Seek`, `Next` and
`NextKey`, `Valid` never returns true together with an error, and when it
returns true the cursor is on an entry whose raw key has 8 bytes at least and the
plain-value tag, `UnsafeKey` is the decoding of that raw key without its trailer,
and with verify on the entry's payload passes the check. -/
theorem Valid_only_at_decoded_entry (env : Env) (r : sstIterator) (h : Reachable env r) :
    (∀ e, r.Valid ≠ (true, some e)) ∧
    (r.Valid.1 = true →
      r.Valid.2 = none ∧
      ∃ it e, r.iter = some it ∧ it.cur = some e ∧ it.Key = e.1 ∧
        env.decodesTo r.verify e r.UnsafeKey) := by
  constructor
  · intro e he
    simp only [sstIterator.Valid, Prod.mk.injEq] at he
    obtain ⟨h1, h2⟩ := he
    simp [h2] at h1
  · intro hv
    simp only [sstIterator.Valid, Bool.and_eq_true, Option.isNone_iff_eq_none] at hv
    obtain ⟨it, e, h1, h2, h3⟩ := Reachable_valid_decoded env r h hv.1 hv.2
    exact ⟨hv.2, it, e, h1, h2, by simp [Cursor.Key, h2], h3⟩

set_option maxRecDepth 20000 in
/-- C17 (witness): the state reached by `Seek` to A at 3 on `tableAAAB`. -/
theorem Valid_only_at_decoded_entry_witness :
    stateOnA3.Valid.2 = none ∧
    ∃ it e, stateOnA3.iter = some it ∧ it.cur = some e ∧ it.Key = e.1 ∧
      env0.decodesTo stateOnA3.verify e stateOnA3.UnsafeKey :=
  (Valid_only_at_decoded_entry env0 stateOnA3
    (Reachable.seek (newIterator tableAAAB false) stateOnA3 (keyAt 65 3)
      (Reachable.fresh tableAAAB false) (by decide))).2 (by decide)

/-! ## Seek resets the position (C18) -/

theorem Next_observe_congr (env : Env) (s s1 : sstIterator) (hiter : s.iter = s1.iter)
    (hver : s.verify = s1.verify) (herr : s.err = s1.err) :
    Option.map sstIterator.observe (s.Next env) =
      Option.map sstIterator.observe (s1.Next env) := by
  obtain ⟨sst, iter, valid, err, mvccKey, nks, verify⟩ := s
  obtain ⟨sst1, iter1, valid1, err1, mvccKey1, nks1, verify1⟩ := s1
  simp only at hiter hver herr
  subst hiter hver herr
  cases iter with
  | none => simp [sstIterator.Next]
  | some it =>
    cases hrest : it.rest with
    | nil => simp [sstIterator.Next, Cursor.Next, hrest, sstIterator.observe, sstIterator.Valid]
    | cons e tl =>
      simp only [sstIterator.Next, Cursor.Next, hrest]
      by_cases hshort : e.1.length < 8
      · simp [hshort, Cursor.Key, sstIterator.observe, sstIterator.Valid]
      · by_cases htag : littleEndianUint64 (e.1.drop (e.1.length - 8)) % 256 = env.BatchTypeValue
        · cases hdec : env.DecodeKey (e.1.take (e.1.length - 8)) with
          | error cause =>
            simp [hshort, htag, hdec, Cursor.Key, sstIterator.observe, sstIterator.Valid]
          | ok p =>
            cases verify <;>
            simp [hshort, htag, hdec, Cursor.Key, Cursor.Value, sstIterator.observe,
              sstIterator.Valid, sstIterator.UnsafeKey, sstIterator.UnsafeValue]
        · simp [hshort, htag, Cursor.Key, sstIterator.observe, sstIterator.Valid]

theorem Next_keeps (env : Env) (s s1 : sstIterator) (h : s.Next env = some s1) :
    s1.sst = s.sst ∧ s1.verify = s.verify ∧
      ∃ it it1, s.iter = some it ∧ s1.iter = some it1 ∧ it1.closeErr = it.closeErr := by
  cases hit : s.iter with
  | none => simp [sstIterator.Next, hit] at h
  | some it =>
    cases hrest : it.rest with
    | nil =>
      rw [Next_exhausted env s it hit hrest] at h
      cases h
      exact ⟨rfl, rfl, it, _, rfl, rfl, rfl⟩
    | cons e tl =>
      simp only [sstIterator.Next, hit, Cursor.Next, hrest] at h
      repeat' split at h
      all_goals
        cases h
        exact ⟨rfl, rfl, it, _, rfl, rfl, rfl⟩

theorem Seek_observe_congr (env : Env) (r r1 : sstIterator) (t : MVCCKey)
    (hsst : r.sst = r1.sst) (hver : r.verify = r1.verify)
    (hclose : ∀ it, r.iter = some it → it.Close = none)
    (hclose1 : ∀ it, r1.iter = some it → it.Close = none)
    (hfresh : r.iter = none → r.err = none) (hfresh1 : r1.iter = none → r1.err = none) :
    Option.map sstIterator.observe (r.Seek env t) =
      Option.map sstIterator.observe (r1.Seek env t) := by
  rw [Seek_of_close_ok env r t hclose, Seek_of_close_ok env r1 t hclose1]
  apply Next_observe_congr
  · simp [sstIterator.reopened, hsst]
  · simpa [sstIterator.reopened] using hver
  · have h0 : (r.reopened env t).err = none := by
      cases hit : r.iter with
      | none => simp [sstIterator.reopened, hit, hfresh hit]
      | some it => simp [sstIterator.reopened, hit]
    have h1 : (r1.reopened env t).err = none := by
      cases hit : r1.iter with
      | none => simp [sstIterator.reopened, hit, hfresh1 hit]
      | some it => simp [sstIterator.reopened, hit]
    rw [h0, h1]

theorem Seek_opens_cursor (env : Env) (r r1 : sstIterator) (key : MVCCKey)
    (h : r.Seek env key = some r1) : r1.iter.isSome := by
  cases hit : r.iter with
  | none =>
    simp only [sstIterator.Seek, hit] at h
    obtain ⟨_, _, _, it1, _, h1, _⟩ := Next_keeps env _ r1 h
    simp [h1]
  | some it =>
    cases hc : it.Close with
    | none =>
      simp only [sstIterator.Seek, hit, hc, errorsWrap, ne_eq, not_true_eq_false,
        if_false] at h
      obtain ⟨_, _, _, it1, _, h1, _⟩ := Next_keeps env _ r1 h
      simp [h1]
    | some e =>
      simp only [sstIterator.Seek, hit, hc, errorsWrap, ne_eq, reduceCtorEq,
        not_false_eq_true, if_true, Option.some.injEq] at h
      subst h
      simp [hit]

/-- In every state reached from construction by `Seek`, `Next` and `NextKey`, an
iterator without cursor has no error: the hypothesis under which the theorems on
`Close` and on `Seek` are stated holds of every state a caller can reach. -/
theorem Reachable_no_cursor_no_error (env : Env) (r : sstIterator) (h : Reachable env r) :
    r.iter = none → r.err = none := by
  induction h with
  | fresh sst verify =>
    intro _
    rfl
  | seek r r1 key _ hs _ =>
    intro hnone
    have := Seek_opens_cursor env r r1 key hs
    simp [hnone] at this
  | next r r1 _ hn _ =>
    intro hnone
    obtain ⟨_, _, _, it1, _, h1, _⟩ := Next_keeps env r r1 hn
    simp [hnone] at h1
  | nextKey r r1 _ hn ih =>
    intro hnone
    by_cases hv : r.valid = true
    · cases hit : r.iter with
      | none => simp [sstIterator.NextKey, hv, sstIterator.Next, hit] at hn
      | some it =>
        obtain ⟨r2, h2, hi2, _⟩ := NextKey_frame env r (by simp [hit])
        rw [h2] at hn
        cases hn
        simp [hnone] at hi2
    · have hv2 : r.valid = false := by simpa using hv
      rw [NextKey_unpositioned env r hv2] at hn
      cases hn
      exact ih hnone

/-- C18: take two iterators over the same table with the same verify flag, in any
two states (whatever their cursor, decoded key or recorded error) in which the open
cursor closes without error and no error is recorded while no cursor is open;
`Seek` to the same target returns on both with the same observation (result of
`Valid`, and key and value when valid); and a second `Seek` to that target, the
table's cursors closing without error, gives the observation of the first. -/
theorem Seek_depends_on_table_and_target (env : Env) (r r1 : sstIterator) (t : MVCCKey)
    (hsst : r.sst = r1.sst) (hver : r.verify = r1.verify)
    (hnew : r.sst.iterCloseErr = none)
    (hclose : ∀ it, r.iter = some it → it.Close = none)
    (hclose1 : ∀ it, r1.iter = some it → it.Close = none)
    (hfresh : r.iter = none → r.err = none) (hfresh1 : r1.iter = none → r1.err = none) :
    ∃ a a1, r.Seek env t = some a ∧ r1.Seek env t = some a1 ∧ a.observe = a1.observe ∧
      ∃ b, a.Seek env t = some b ∧ b.observe = a.observe := by
  have hcongr := Seek_observe_congr env r r1 t hsst hver hclose hclose1 hfresh hfresh1
  obtain ⟨a, ha, _⟩ := Next_frame env (r.reopened env t) (by simp [sstIterator.reopened])
  obtain ⟨a1, ha1, _⟩ := Next_frame env (r1.reopened env t) (by simp [sstIterator.reopened])
  obtain ⟨hasst, haver, it, ita, hit, hita, hce⟩ := Next_keeps env _ a ha
  have hsa : r.Seek env t = some a := by rw [Seek_of_close_ok env r t hclose, ha]
  have hsa1 : r1.Seek env t = some a1 := by rw [Seek_of_close_ok env r1 t hclose1, ha1]
  rw [hsa, hsa1] at hcongr
  have hclosea : ∀ c, a.iter = some c → c.Close = none := by
    intro c hc
    rw [hita] at hc
    cases hc
    simp only [sstIterator.reopened, Option.some.injEq] at hit
    rw [Cursor.Close, hce, ← hit]
    exact hnew
  have hidem := Seek_observe_congr env a r t (by simpa [sstIterator.reopened] using hasst)
    (by simpa [sstIterator.reopened] using haver) hclosea hclose
    (by intro h; rw [hita] at h; cases h) hfresh
  rw [hsa] at hidem
  cases hb : a.Seek env t with
  | none => simp [hb] at hidem
  | some b =>
    rw [hb] at hidem
    exact ⟨a, a1, hsa, hsa1, by simpa using hcongr, b, hb, by simpa using hidem⟩

set_option maxRecDepth 20000 in
/-- C18 (witness): on `tableShortThenGood`, `Seek` to A at 5 from the fresh
iterator and from the state holding the short-key error of an earlier `Seek` give
the same observation: valid, no error, key A at 5, value 07. -/
theorem Seek_depends_on_table_and_target_witness :
    (∃ a a1, (newIterator tableShortThenGood false).Seek env0 (keyAt 65 5) = some a ∧
      stateAfterShort.Seek env0 (keyAt 65 5) = some a1 ∧ a.observe = a1.observe ∧
      ∃ b, a.Seek env0 (keyAt 65 5) = some b ∧ b.observe = a.observe) ∧
    (newIterator tableShortThenGood false).Seek env0 keyMin = some stateAfterShort ∧
    Option.map sstIterator.observe (stateAfterShort.Seek env0 (keyAt 65 5)) =
      some ((true, none), some (keyAt 65 5, some [7])) :=
  ⟨Seek_depends_on_table_and_target env0 (newIterator tableShortThenGood false)
      stateAfterShort (keyAt 65 5) (by decide) (by decide) (by decide)
      (by intro it h; cases h)
      (by
        intro it h
        simp only [stateAfterShort, Option.some.injEq] at h
        rw [← h]
        rfl)
      (by intro _; rfl) (by intro h; cases h),
    by decide, by decide⟩

/-! ## The comparator, case by case (C21, C22, C23, C28) -/

/-- C21: `AppendSeparator` panics on every input `dst`, `a`, `b`: it never
returns a value. -/
theorem AppendSeparator_panics (dst a b : Bytes) :
    AppendSeparator dst a b = none ∧ ∀ out, AppendSeparator dst a b ≠ some out := by
  constructor
  · rfl
  · intro out h
    cases h

/-- C22: when both keys split and their user keys differ, `Compare` is the
byte-wise comparison of the two user keys, whatever the timestamp bytes. -/
theorem Compare_by_user_key (env : Env) (a b keyA tsA keyB tsB : Bytes)
    (ha : env.SplitMVCCKey a = some (keyA, tsA)) (hb : env.SplitMVCCKey b = some (keyB, tsB))
    (hne : keyA ≠ keyB) :
    Compare env a b = bytesCompare keyA keyB ∧ Compare env a b ≠ 0 := by
  have hc : bytesCompare keyA keyB ≠ 0 := fun h => hne ((bytesCompare_eq_zero_iff keyA keyB).1 h)
  rw [Compare_of_split env a b keyA tsA keyB tsB ha hb]
  simp [hc]

/-- C22 (witness): A at wall time 5 against B without timestamp, in the MVCC
layout: the user keys decide. -/
theorem Compare_by_user_key_witness :
    Compare env0 [65, 0, 0, 0, 0, 0, 0, 0, 0, 5, 9] [66, 0] = bytesCompare [65] [66] ∧
      Compare env0 [65, 0, 0, 0, 0, 0, 0, 0, 0, 5, 9] [66, 0] ≠ 0 :=
  Compare_by_user_key env0 [65, 0, 0, 0, 0, 0, 0, 0, 0, 5, 9] [66, 0] [65]
    [0, 0, 0, 0, 0, 0, 0, 5] [66] [] (by decide) (by decide) (by decide)

/-- C23: when both keys split with the same user key and both have timestamp
bytes, `Compare a b` is the byte-wise comparison of the timestamp bytes of `b`
against those of `a`. -/
theorem Compare_by_reversed_timestamp (env : Env) (a b k tsA tsB : Bytes)
    (ha : env.SplitMVCCKey a = some (k, tsA)) (hb : env.SplitMVCCKey b = some (k, tsB))
    (hA : tsA.length ≠ 0) (hB : tsB.length ≠ 0) :
    Compare env a b = bytesCompare tsB tsA := by
  rw [Compare_of_split env a b k tsA k tsB ha hb, bytesCompare_self k]
  simp [hA, hB]

/-- C23 (witness): A at wall time 5 against A at wall time 3, in the MVCC layout. -/
theorem Compare_by_reversed_timestamp_witness :
    Compare env0 [65, 0, 0, 0, 0, 0, 0, 0, 0, 5, 9] [65, 0, 0, 0, 0, 0, 0, 0, 0, 3, 9] =
      bytesCompare [0, 0, 0, 0, 0, 0, 0, 3] [0, 0, 0, 0, 0, 0, 0, 5] :=
  Compare_by_reversed_timestamp env0 [65, 0, 0, 0, 0, 0, 0, 0, 0, 5, 9]
    [65, 0, 0, 0, 0, 0, 0, 0, 0, 3, 9] [65] [0, 0, 0, 0, 0, 0, 0, 5] [0, 0, 0, 0, 0, 0, 0, 3]
    (by decide) (by decide) (by decide) (by decide)

/-- C28: for two keys that both split, `Compare` is 0 exactly when the user keys
are equal and the timestamp bytes are equal; when the split of either key fails,
`Compare` is 0 exactly when the raw keys are equal. -/
theorem Compare_eq_zero_iff (env : Env) (a b : Bytes) :
    (∀ keyA tsA keyB tsB, env.SplitMVCCKey a = some (keyA, tsA) →
      env.SplitMVCCKey b = some (keyB, tsB) →
      (Compare env a b = 0 ↔ keyA = keyB ∧ tsA = tsB)) ∧
    (env.SplitMVCCKey a = none ∨ env.SplitMVCCKey b = none →
      (Compare env a b = 0 ↔ a = b)) := by
  constructor
  · intro keyA tsA keyB tsB ha hb
    rw [Compare_of_split env a b keyA tsA keyB tsB ha hb]
    by_cases hk : keyA = keyB
    · subst hk
      simp only [bytesCompare_self, ne_eq, not_true_eq_false, if_false, true_and]
      by_cases hA : tsA.length = 0
      · have hA0 : tsA = [] := List.length_eq_zero.1 hA
        by_cases hB : tsB.length = 0
        · have hB0 : tsB = [] := List.length_eq_zero.1 hB
          simp [hA0, hB0]
        · have hB0 : tsB ≠ [] := fun h => hB (by simp [h])
          simp only [hA, hB, if_true, if_false]
          constructor
          · intro h
            simp at h
          · intro h
            exact absurd (hA0 ▸ h.symm) hB0
      · have hA0 : tsA ≠ [] := fun h => hA (by simp [h])
        by_cases hB : tsB.length = 0
        · have hB0 : tsB = [] := List.length_eq_zero.1 hB
          simp only [hA, hB, if_true, if_false]
          constructor
          · intro h
            simp at h
          · intro h
            exact absurd (hB0 ▸ h) hA0
        · simp only [hA, hB, if_false]
          rw [bytesCompare_eq_zero_iff]
          exact eq_comm
    · have hc : bytesCompare keyA keyB ≠ 0 :=
        fun h => hk ((bytesCompare_eq_zero_iff keyA keyB).1 h)
      simp [hc, hk]
  · intro h
    rw [Compare_of_fail env a b h]
    exact bytesCompare_eq_zero_iff a b

/-- C28 (witness): in the MVCC layout, A at wall time 5 against itself and
against A at wall time 3; the key 03, which does not split, against itself. -/
theorem Compare_eq_zero_iff_witness :
    (Compare env0 [65, 0, 0, 0, 0, 0, 0, 0, 0, 5, 9] [65, 0, 0, 0, 0, 0, 0, 0, 0, 5, 9] = 0 ↔
      ([65] : Bytes) = [65] ∧
        ([0, 0, 0, 0, 0, 0, 0, 5] : Bytes) = [0, 0, 0, 0, 0, 0, 0, 5]) ∧
    (Compare env0 [3] [3] = 0 ↔ ([3] : Bytes) = [3]) :=
  ⟨(Compare_eq_zero_iff env0 [65, 0, 0, 0, 0, 0, 0, 0, 0, 5, 9]
      [65, 0, 0, 0, 0, 0, 0, 0, 0, 5, 9]).1 [65] [0, 0, 0, 0, 0, 0, 0, 5] [65]
      [0, 0, 0, 0, 0, 0, 0, 5] (by decide) (by decide),
    (Compare_eq_zero_iff env0 [3] [3]).2 (Or.inl (by decide))⟩

/-! ## The decode step as a function of the entry -/

theorem Next_on_entry (env : Env) (s : sstIterator) (it : Cursor) (e : Bytes × Bytes)
    (tl : List (Bytes × Bytes)) (hit : s.iter = some it) (hrest : it.rest = e :: tl) :
    s.Next env = some
      (if e.1.length < 8 then s.failedOn it e tl (Error.invalidInternalKey e.1)
       else if littleEndianUint64 (e.1.drop (e.1.length - 8)) % 256 ≠ env.BatchTypeValue then
         s.failedOn it e tl (Error.valueTypeNotSupported
           (littleEndianUint64 (e.1.drop (e.1.length - 8)) % 256))
       else match env.DecodeKey (e.1.take (e.1.length - 8)) with
         | Except.ok (k, ts) =>
           { s.onEntry it e tl { Key := k, Timestamp := ts } with
             err := if s.verify then env.Verify e.2 k else none }
         | Except.error cause =>
           s.failedOn it e tl (Error.decodingKey cause (e.1.take (e.1.length - 8)))) := by
  by_cases hshort : e.1.length < 8
  · simp [sstIterator.Next, sstIterator.failedOn, hit, Cursor.Next, hrest, Cursor.Key, hshort]
  · by_cases htag : littleEndianUint64 (e.1.drop (e.1.length - 8)) % 256 = env.BatchTypeValue
    · cases hdec : env.DecodeKey (e.1.take (e.1.length - 8)) with
      | error cause =>
        simp [sstIterator.Next, sstIterator.failedOn, hit, Cursor.Next, hrest, Cursor.Key,
          hshort, htag, hdec]
      | ok p =>
        obtain ⟨k, ts⟩ := p
        cases hver : s.verify <;>
        simp [sstIterator.Next, sstIterator.onEntry, hit, Cursor.Next, hrest, Cursor.Key,
          Cursor.Value, hshort, htag, hdec, hver]
    · simp [sstIterator.Next, sstIterator.failedOn, hit, Cursor.Next, hrest, Cursor.Key,
        hshort, htag]

theorem Next_of_failsWith (env : Env) (s : sstIterator) (it : Cursor) (e : Bytes × Bytes)
    (tl : List (Bytes × Bytes)) (err : Error) (hit : s.iter = some it)
    (hrest : it.rest = e :: tl) (hfail : env.failsWith s.verify e err) :
    ∃ s2, s.Next env = some s2 ∧ s2.iter = some { it with rest := tl, cur := some e } ∧
      s2.valid = true ∧ s2.err = some err := by
  rw [Next_on_entry env s it e tl hit hrest]
  rcases hfail with ⟨hshort, rfl⟩ | ⟨hlen, htag, rfl⟩ | ⟨hlen, htag, cause, hdec, rfl⟩ |
    ⟨hver, k, ⟨hlen, htag, hdec, _⟩, hbad⟩
  · exact ⟨_, rfl, by simp [hshort, sstIterator.failedOn]⟩
  · have hs : ¬ e.1.length < 8 := by omega
    exact ⟨_, rfl, by simp [hs, htag, sstIterator.failedOn]⟩
  · have hs : ¬ e.1.length < 8 := by omega
    exact ⟨_, rfl, by simp [hs, htag, hdec, sstIterator.failedOn]⟩
  · have hs : ¬ e.1.length < 8 := by omega
    exact ⟨_, rfl, by simp [hs, htag, hdec, hver, hbad, sstIterator.onEntry]⟩

/-! ## NextKey and a decode error (C24) -/

theorem nextKey_scan_error (env : Env) (K : Bytes) (bad : Bytes × Bytes)
    (post : List (Bytes × Bytes)) (err : Error) :
    ∀ (pre : List (Bytes × Bytes)) (s : sstIterator) (it : Cursor) (fuel : Nat),
      s.iter = some it → it.rest = pre ++ bad :: post → s.nextKeyStart = K →
      (∀ e ∈ pre, ∃ k, env.decodesTo s.verify e k ∧ k.Key = K) →
      env.failsWith s.verify bad err → pre.length ≤ fuel →
      ∃ s1, (match s.Next env with
              | none => none
              | some s2 => sstIterator.nextKeyLoop env fuel s2) = some s1 ∧
        s1.iter = some { it with rest := post, cur := some bad } ∧
        s1.Valid = (false, some err) := by
  intro pre
  induction pre with
  | nil =>
    intro s it fuel hit hrest _ _ hbad _
    obtain ⟨s2, h2, hi2, _, he2⟩ :=
      Next_of_failsWith env s it bad post err hit (by simpa using hrest) hbad
    rw [h2]
    have hsame : s2.sameKey = false := by simp [sstIterator.sameKey, he2]
    exact ⟨s2, nextKeyLoop_of_not_sameKey env fuel s2 hsame, hi2,
      by simp [sstIterator.Valid, he2]⟩
  | cons e pre ih =>
    intro s it fuel hit hrest hstart hwf hbad hfuel
    obtain ⟨k, hk, hkK⟩ := hwf e (List.mem_cons_self e pre)
    rw [Next_decodes env s it e (pre ++ bad :: post) k hit (by simpa using hrest) hk]
    cases fuel with
    | zero => simp at hfuel
    | succ n =>
      have hsame : (s.onEntry it e (pre ++ bad :: post) k).sameKey = true := by
        simp [sstIterator.sameKey, sstIterator.onEntry, bytesEqual, hstart, hkK]
      simp only [sstIterator.nextKeyLoop, hsame, if_true]
      exact ih (s.onEntry it e (pre ++ bad :: post) k)
        { it with rest := pre ++ bad :: post, cur := some e } n rfl rfl hstart
        (fun x hx => hwf x (List.mem_cons_of_mem e hx)) hbad (by simpa using hfuel)

/-- C24: from a position with the validity flag set, when the entries ahead are
versions of the current user key that decode, then an entry on which the decode
step fails with `err` (short trailer, unsupported tag, undecodable key or payload
check), `NextKey` returns with the cursor on that entry, nothing after it
consumed, and `Valid` returns false with `err`. -/
theorem NextKey_stops_at_decode_error (env : Env) (r : sstIterator) (it : Cursor)
    (pre : List (Bytes × Bytes)) (bad : Bytes × Bytes) (post : List (Bytes × Bytes))
    (err : Error) (hit : r.iter = some it) (hv : r.valid = true)
    (hrest : it.rest = pre ++ bad :: post)
    (hpre : ∀ e ∈ pre, ∃ k, env.decodesTo r.verify e k ∧ k.Key = r.UnsafeKey.Key)
    (hbad : env.failsWith r.verify bad err) :
    ∃ r1, r.NextKey env = some r1 ∧
      r1.iter = some { it with rest := post, cur := some bad } ∧
      r1.Valid = (false, some err) := by
  have := nextKey_scan_error env r.mvccKey.Key bad post err pre
    { r with nextKeyStart := r.mvccKey.Key } it (r.ahead + 1) hit hrest rfl hpre hbad
    (by simp [sstIterator.ahead, hit, hrest]; omega)
  simpa [sstIterator.NextKey, hv] using this

set_option maxRecDepth 20000 in
/-- C24 (witness): on `tableBadThird` with verify on, from A at 3, `NextKey` skips
A at 2 and stops on A at 1, whose payload fails the check; B is not reached. -/
theorem NextKey_stops_at_decode_error_witness :
    (∃ r1, stateOnA3BadThird.NextKey env1 = some r1 ∧
      r1.iter = some { rest := [entryOf (keyAt 66 1) []],
                       cur := some (entryOf (keyAt 65 1) [9]), closeErr := none } ∧
      r1.Valid = (false, some (Error.external "invalid header size"))) ∧
    (newIterator tableBadThird true).Seek env1 (keyAt 65 3) = some stateOnA3BadThird :=
  ⟨NextKey_stops_at_decode_error env1 stateOnA3BadThird
      { rest := [entryOf (keyAt 65 2) [], entryOf (keyAt 65 1) [9], entryOf (keyAt 66 1) []],
        cur := some (entryOf (keyAt 65 3) []), closeErr := none }
      [entryOf (keyAt 65 2) []] (entryOf (keyAt 65 1) [9]) [entryOf (keyAt 66 1) []]
      (Error.external "invalid header size") (by decide) (by decide) (by decide)
      (by
        intro e he
        simp only [List.mem_singleton] at he
        subst he
        exact ⟨keyAt 65 2, ⟨by decide, by decide, by rfl, by decide⟩, by decide⟩)
      (Or.inr (Or.inr (Or.inr ⟨by decide, keyAt 65 1,
        ⟨by decide, by decide, by rfl, by decide⟩, by decide⟩))),
    by decide⟩

/-! ## What the decode step reads and writes (C25, C26, C29) -/

/-- C26: with verify off, two entries with the same raw key and any two values
give the same validity flag, result of `Valid` and decoded key, and a well-formed
plain-value entry is reported valid whatever the payload check would say of its
value; with verify on, a well-formed plain-value entry whose payload passes the
check is reported valid without error. -/
theorem payload_check_optional (env : Env) :
    (∀ (s s1 : sstIterator) (it it1 : Cursor) (raw v v1 : Bytes)
        (tl tl1 : List (Bytes × Bytes)),
      s.iter = some it → s1.iter = some it1 → it.rest = (raw, v) :: tl →
      it1.rest = (raw, v1) :: tl1 → s.verify = false → s1.verify = false →
      s.mvccKey = s1.mvccKey →
      ∃ a a1, s.Next env = some a ∧ s1.Next env = some a1 ∧ a.valid = a1.valid ∧
        a.Valid = a1.Valid ∧ a.UnsafeKey = a1.UnsafeKey) ∧
    (∀ (s : sstIterator) (it : Cursor) (e : Bytes × Bytes) (tl : List (Bytes × Bytes))
        (k : MVCCKey),
      s.iter = some it → it.rest = e :: tl → s.verify = false → env.decodesTo false e k →
      ∃ a, s.Next env = some a ∧ a.Valid = (true, none) ∧ a.UnsafeKey = k) ∧
    (∀ (s : sstIterator) (it : Cursor) (e : Bytes × Bytes) (tl : List (Bytes × Bytes))
        (k : MVCCKey),
      s.iter = some it → it.rest = e :: tl → s.verify = true → env.decodesTo true e k →
      ∃ a, s.Next env = some a ∧ a.Valid = (true, none) ∧ a.UnsafeKey = k) := by
  refine ⟨?_, ?_, ?_⟩
  · intro s s1 it it1 raw v v1 tl tl1 hit hit1 hrest hrest1 hver hver1 hkey
    refine ⟨_, _, Next_on_entry env s it _ tl hit hrest,
      Next_on_entry env s1 it1 _ tl1 hit1 hrest1, ?_⟩
    simp only [hver, hver1]
    by_cases hshort : raw.length < 8
    · simp [hshort, sstIterator.failedOn, sstIterator.Valid, sstIterator.UnsafeKey, hkey]
    · by_cases htag : littleEndianUint64 (raw.drop (raw.length - 8)) % 256 = env.BatchTypeValue
      · cases hdec : env.DecodeKey (raw.take (raw.length - 8)) with
        | error cause =>
          simp [hshort, htag, sstIterator.failedOn, sstIterator.Valid, sstIterator.UnsafeKey,
            hkey]
        | ok p =>
          simp [hshort, htag, sstIterator.onEntry, sstIterator.Valid, sstIterator.UnsafeKey]
      · simp [hshort, htag, sstIterator.failedOn, sstIterator.Valid, sstIterator.UnsafeKey,
          hkey]
  · intro s it e tl k hit hrest hver hk
    refine ⟨_, Next_decodes env s it e tl k hit hrest (by rw [hver]; exact hk), ?_, ?_⟩
    · simp [sstIterator.Valid, sstIterator.onEntry]
    · simp [sstIterator.UnsafeKey, sstIterator.onEntry]
  · intro s it e tl k hit hrest hver hk
    refine ⟨_, Next_decodes env s it e tl k hit hrest (by rw [hver]; exact hk), ?_, ?_⟩
    · simp [sstIterator.Valid, sstIterator.onEntry]
    · simp [sstIterator.UnsafeKey, sstIterator.onEntry]

set_option maxRecDepth 20000 in
/-- C26 (witness): with the payload check `verifyHeader`, which rejects the
1-byte value 09, and verify off, the entry of A at 1 with value 09 is reported
valid. -/
theorem payload_check_optional_witness :
    verifyHeader [9] [65] = some (Error.external "invalid header size") ∧
    ∃ a, (cursorBefore [entryOf (keyAt 65 1) [9]]).Next env1 = some a ∧
      a.Valid = (true, none) ∧ a.UnsafeKey = keyAt 65 1 :=
  ⟨by decide,
    (payload_check_optional env1).2.1 (cursorBefore [entryOf (keyAt 65 1) [9]])
      { rest := [entryOf (keyAt 65 1) [9]], cur := none, closeErr := none }
      (entryOf (keyAt 65 1) [9]) [] (keyAt 65 1) (by decide) (by decide) (by decide)
      ⟨by decide, by decide, by rfl, by decide⟩⟩

/-! ## NextKey as iterated Next (C27) -/

theorem Next_sameKey (env : Env) (K : Bytes) (s : sstIterator) (it : Cursor)
    (e : Bytes × Bytes) (tl : List (Bytes × Bytes)) (hit : s.iter = some it)
    (hrest : it.rest = e :: tl) (hstart : s.nextKeyStart = K) :
    ∃ s2, s.Next env = some s2 ∧ s2.iter = some { it with rest := tl, cur := some e } ∧
      s2.verify = s.verify ∧ s2.nextKeyStart = K ∧
      s2.sameKey = env.sameKeyEntry s.verify K e := by
  refine ⟨_, Next_on_entry env s it e tl hit hrest, ?_⟩
  by_cases hshort : e.1.length < 8
  · have hlen : ¬ 8 ≤ e.1.length := by omega
    simp [hshort, hlen, sstIterator.failedOn, sstIterator.sameKey, Env.sameKeyEntry, hstart]
  · have hlen : 8 ≤ e.1.length := by omega
    by_cases htag : littleEndianUint64 (e.1.drop (e.1.length - 8)) % 256 = env.BatchTypeValue
    · cases hdec : env.DecodeKey (e.1.take (e.1.length - 8)) with
      | error cause =>
        simp [hshort, hlen, htag, hdec, sstIterator.failedOn, sstIterator.sameKey,
          Env.sameKeyEntry, hstart]
      | ok p =>
        obtain ⟨k, ts⟩ := p
        cases hver : s.verify with
        | false =>
          simp [hshort, hlen, htag, hdec, hver, sstIterator.onEntry, sstIterator.sameKey,
            Env.sameKeyEntry, hstart, bytesEqual, eq_comm]
        | true =>
          simp [hshort, hlen, htag, hdec, hver, sstIterator.onEntry, sstIterator.sameKey,
            Env.sameKeyEntry, hstart, bytesEqual, eq_comm, Bool.and_comm]
    · simp [hshort, hlen, htag, sstIterator.failedOn, sstIterator.sameKey, Env.sameKeyEntry,
        hstart]

theorem nextKeyLoop_eq_run (env : Env) (K : Bytes) (vf : Bool) :
    ∀ (rest : List (Bytes × Bytes)) (s : sstIterator) (it : Cursor) (fuel : Nat),
      s.iter = some it → it.rest = rest → s.nextKeyStart = K → s.verify = vf →
      rest.length ≤ fuel →
      (match s.Next env with
        | none => none
        | some s2 => sstIterator.nextKeyLoop env fuel s2) =
      s.run env (List.replicate (1 + (rest.takeWhile (env.sameKeyEntry vf K)).length) Op.next) := by
  intro rest
  induction rest with
  | nil =>
    intro s it fuel hit hrest _ _ _
    have hN := Next_exhausted env s it hit hrest
    simp only [List.takeWhile_nil, List.length_nil, Nat.add_zero, List.replicate_one,
      sstIterator.run, sstIterator.step, hN]
    exact nextKeyLoop_of_not_sameKey env fuel _ (sameKey_false_of_not_valid _ rfl)
  | cons e tl ih =>
    intro s it fuel hit hrest hstart hver hfuel
    obtain ⟨s2, hN, hi2, hv2, hs2, hsame⟩ := Next_sameKey env K s it e tl hit hrest hstart
    rw [hver] at hsame
    cases hp : env.sameKeyEntry vf K e with
    | false =>
      rw [hp] at hsame
      simp only [List.takeWhile_cons, hp, Bool.false_eq_true, if_false, List.length_nil,
        Nat.add_zero, List.replicate_one, sstIterator.run, sstIterator.step, hN]
      exact nextKeyLoop_of_not_sameKey env fuel s2 hsame
    | true =>
      rw [hp] at hsame
      cases fuel with
      | zero => simp at hfuel
      | succ n =>
        have hlen : 1 + ((e :: tl).takeWhile (env.sameKeyEntry vf K)).length =
            (1 + (tl.takeWhile (env.sameKeyEntry vf K)).length) + 1 := by
          simp [List.takeWhile_cons, hp]
          omega
        rw [hlen, List.replicate_succ]
        simp only [sstIterator.run, sstIterator.step, hN, sstIterator.nextKeyLoop, hsame,
          if_true]
        exact ih s2 { it with rest := tl, cur := some e } n hi2 rfl hs2 (hv2.trans hver)
          (by simpa using hfuel)

theorem Next_nextKeyStart (env : Env) (s : sstIterator) (x : Bytes) :
    sstIterator.Next env { s with nextKeyStart := x } =
      (s.Next env).map (fun a => { a with nextKeyStart := x }) := by
  rcases Option.eq_none_or_eq_some s.iter with hit | ⟨it, hit⟩
  · simp [sstIterator.Next, hit]
  · have hit1 : ({ s with nextKeyStart := x } : sstIterator).iter = some it := hit
    cases hrest : it.rest with
    | nil =>
      rw [Next_exhausted env s it hit hrest, Next_exhausted env _ it hit1 hrest]
      rfl
    | cons e tl =>
      rw [Next_on_entry env s it e tl hit hrest, Next_on_entry env _ it e tl hit1 hrest]
      by_cases hshort : e.1.length < 8
      · simp [hshort, sstIterator.failedOn]
      · by_cases htag : littleEndianUint64 (e.1.drop (e.1.length - 8)) % 256 = env.BatchTypeValue
        · cases hdec : env.DecodeKey (e.1.take (e.1.length - 8)) with
          | error cause => simp [hshort, htag, sstIterator.failedOn]
          | ok p => simp [hshort, htag, sstIterator.onEntry]
        · simp [hshort, htag, sstIterator.failedOn]

theorem run_next_nextKeyStart (env : Env) (x : Bytes) :
    ∀ (n : Nat) (s : sstIterator),
      sstIterator.run env (List.replicate n Op.next) { s with nextKeyStart := x } =
        (s.run env (List.replicate n Op.next)).map (fun a => { a with nextKeyStart := x }) := by
  intro n
  induction n with
  | zero =>
    intro s
    simp [sstIterator.run]
  | succ n ih =>
    intro s
    rw [List.replicate_succ]
    simp only [sstIterator.run, sstIterator.step, Next_nextKeyStart]
    cases hN : s.Next env with
    | none => simp
    | some a => simpa using ih a

/-- C27: from a position with the validity flag set, `NextKey` returns, with the
guard of its loop false (the loop has ended by itself); it is the result of
1 + m calls of `Next`, m the number of entries right ahead of the cursor that
decode successfully to the starting user key, but for the reuse buffer, which
holds the starting user key at the end. -/
theorem NextKey_eq_iterated_Next (env : Env) (r : sstIterator) (it : Cursor)
    (hit : r.iter = some it) (hv : r.valid = true) :
    r.NextKey env = r.NextKeyByNext env ∧
    ∃ r1 r2, r.NextKey env = some r1 ∧ r1.sameKey = false ∧
      r.run env (List.replicate
        (1 + (it.rest.takeWhile (env.sameKeyEntry r.verify r.UnsafeKey.Key)).length) Op.next)
        = some r2 ∧
      r1 = { r2 with nextKeyStart := r.UnsafeKey.Key } ∧
      r1.iter = r2.iter ∧ r1.observe = r2.observe ∧ r1.nextKeyStart = r.UnsafeKey.Key := by
  have hloop := nextKeyLoop_eq_run env r.mvccKey.Key r.verify it.rest
    { r with nextKeyStart := r.mvccKey.Key } it (r.ahead + 1) hit rfl rfl rfl
    (by simp [sstIterator.ahead, hit])
  have heq : r.NextKey env = r.NextKeyByNext env := by
    have h := hloop
    simp only [sstIterator.NextKey, hv, Bool.not_true, Bool.false_eq_true, if_false,
      sstIterator.NextKeyByNext, hit]
    simp only [hit, hv] at h
    exact h
  obtain ⟨r1, h1, hexit⟩ := NextKey_exits env r (by simp [hit]) hv
  refine ⟨heq, ?_⟩
  have hrun := run_next_nextKeyStart env r.mvccKey.Key
    (1 + (it.rest.takeWhile (env.sameKeyEntry r.verify r.mvccKey.Key)).length) r
  have hbn : r.NextKeyByNext env =
      (r.run env (List.replicate
        (1 + (it.rest.takeWhile (env.sameKeyEntry r.verify r.mvccKey.Key)).length)
        Op.next)).map (fun a => { a with nextKeyStart := r.mvccKey.Key }) := by
    have h := hrun
    simp only [sstIterator.NextKeyByNext, hit]
    simp only [hit] at h
    exact h
  have h2 : r.NextKeyByNext env = some r1 := by rw [← heq, h1]
  rw [hbn] at h2
  cases hr : r.run env (List.replicate
      (1 + (it.rest.takeWhile (env.sameKeyEntry r.verify r.mvccKey.Key)).length) Op.next) with
  | none => simp [hr] at h2
  | some r2 =>
    simp only [hr, Option.map_some', Option.some.injEq] at h2
    subst h2
    exact ⟨_, r2, h1, hexit, hr, rfl, rfl, rfl, rfl⟩

set_option maxRecDepth 20000 in
/-- C27 (witness): on `tableAAAB` from A at 3, two entries ahead decode to user
key A, so `NextKey` is three calls of `Next` and lands on B at 1. -/
theorem NextKey_eq_iterated_Next_witness :
    stateOnA3.NextKey env0 = stateOnA3.NextKeyByNext env0 ∧
    Option.map sstIterator.observe (stateOnA3.NextKey env0) =
      Option.map sstIterator.observe (stateOnA3.run env0 [Op.next, Op.next, Op.next]) ∧
    Option.map sstIterator.UnsafeKey (stateOnA3.run env0 [Op.next, Op.next, Op.next]) =
      some (keyAt 66 1) :=
  ⟨(NextKey_eq_iterated_Next env0 stateOnA3
      { rest := [entryOf (keyAt 65 2) [2], entryOf (keyAt 65 1) [1], entryOf (keyAt 66 1) [9]],
        cur := some (entryOf (keyAt 65 3) [3]), closeErr := none }
      (by decide) (by decide)).1,
    by decide, by decide⟩

/-! ## The MVCC layout keeps the order of timestamps (C3) -/

theorem bigEndianBytes_length (n v : Nat) : (bigEndianBytes n v).length = n := by
  induction n generalizing v with
  | zero => rfl
  | succ n ih => simp [bigEndianBytes, ih]

theorem bytesCompare_append (a b x y : Bytes) (hlen : a.length = b.length) :
    bytesCompare (a ++ x) (b ++ y) =
      if bytesCompare a b ≠ 0 then bytesCompare a b else bytesCompare x y := by
  induction a generalizing b with
  | nil =>
    cases b with
    | nil => simp [bytesCompare]
    | cons c cs => simp at hlen
  | cons c cs ih =>
    cases b with
    | nil => simp at hlen
    | cons d ds =>
      have hl : cs.length = ds.length := by simpa using hlen
      simp only [List.cons_append, bytesCompare]
      rcases lt_trichotomy c d with h | h | h
      · simp [h]
      · subst h
        simp only [lt_irrefl, if_false]
        exact ih ds hl
      · simp [h, lt_asymm h]

theorem bigEndianBytes_lt (n : Nat) :
    ∀ (a b : Nat), a < b → b < 256 ^ n →
      bytesCompare (bigEndianBytes n a) (bigEndianBytes n b) = -1 := by
  induction n with
  | zero =>
    intro a b hab hb
    simp at hb
    omega
  | succ n ih =>
    intro a b hab hb
    have hb1 : b / 256 < 256 ^ n := by
      rw [Nat.div_lt_iff_lt_mul (by decide)]
      rw [pow_succ] at hb
      exact hb
    simp only [bigEndianBytes]
    rw [bytesCompare_append _ _ _ _ (by simp [bigEndianBytes_length])]
    by_cases hq : a / 256 < b / 256
    · rw [ih (a / 256) (b / 256) hq hb1]
      simp
    · have hq2 : a / 256 = b / 256 := by omega
      have hr : a % 256 < b % 256 := by omega
      rw [hq2, bytesCompare_self]
      simp [bytesCompare, Fin.lt_def, hr]

theorem mvccSplit_layout (K ts : Bytes) (last : Byte) (hlast : last.val = ts.length + 1) :
    mvccSplitMVCCKey (K ++ (0 :: ts) ++ [last]) = some (K, ts) := by
  have hlen : (K ++ (0 :: ts) ++ [last]).length = K.length + ts.length + 2 := by
    simp
    omega
  have hge : ¬ (K ++ (0 :: ts) ++ [last]).length < 1 + last.val := by
    rw [hlen, hlast]
    omega
  have hend : (K ++ (0 :: ts) ++ [last]).length - 1 - last.val = K.length := by
    rw [hlen, hlast]
    omega
  have hpos : 0 < last.val := by omega
  have htake : (K ++ (0 :: ts) ++ [last]).take K.length = K := by
    rw [List.append_assoc, List.take_left]
  have hmid : ((K ++ (0 :: ts) ++ [last]).take ((K ++ (0 :: ts) ++ [last]).length - 1)).drop
      (K.length + 1) = ts := by
    have h1 : (K ++ (0 :: ts) ++ [last]).length - 1 = (K ++ (0 :: ts)).length := by simp
    rw [h1, List.take_left]
    have h2 : K ++ (0 :: ts) = (K ++ [0]) ++ ts := by simp
    have h3 : K.length + 1 = (K ++ [0]).length := by simp
    rw [h2, h3, List.drop_left]
  have hg : (K ++ (0 :: ts) ++ [last]).getLast? = some last :=
    List.getLast?_concat (K ++ (0 :: ts))
  simp only [mvccSplitMVCCKey, hg, hge, if_false, hend, htake, hpos, if_true, hmid]

/-- The timestamp bytes the MVCC layout writes for a non-zero timestamp: wall time
on 8 bytes, then a non-zero logical time on 4 bytes, big-endian. -/
theorem mvccSplit_encode (K : Bytes) (t : Timestamp) (hz : t ≠ Timestamp.zero) :
    mvccSplitMVCCKey (mvccEncodeKey { Key := K, Timestamp := t }) =
      some (K, bigEndianBytes 8 (t.WallTime % 2 ^ 64).toNat ++
        (if t.Logical ≠ 0 then bigEndianBytes 4 (t.Logical % 2 ^ 32).toNat else [])) := by
  have hz1 : ¬ t = { WallTime := 0, Logical := 0 } := hz
  simp only [mvccEncodeKey, hz1, if_false]
  apply mvccSplit_layout
  by_cases hl : t.Logical = 0
  · simp [hl, bigEndianBytes_length]
  · simp [hl, bigEndianBytes_length]

theorem bytesCompare_nil_left (l : Bytes) (h : l.length ≠ 0) : bytesCompare [] l = -1 := by
  cases l with
  | nil => simp at h
  | cons c cs => simp [bytesCompare]

theorem mvcc_timestamp_bytes_lt (t1 t2 : Timestamp) (h1 : t1.nonNegative)
    (h2 : t2.nonNegative) (hlt : t2.Less t1) :
    bytesCompare
      (bigEndianBytes 8 (t2.WallTime % 2 ^ 64).toNat ++
        (if t2.Logical ≠ 0 then bigEndianBytes 4 (t2.Logical % 2 ^ 32).toNat else []))
      (bigEndianBytes 8 (t1.WallTime % 2 ^ 64).toNat ++
        (if t1.Logical ≠ 0 then bigEndianBytes 4 (t1.Logical % 2 ^ 32).toNat else [])) = -1 := by
  obtain ⟨h1a, h1b, h1c, h1d⟩ := h1
  obtain ⟨h2a, h2b, h2c, h2d⟩ := h2
  have e1 : (t1.WallTime % 2 ^ 64).toNat = t1.WallTime.toNat := by omega
  have e2 : (t2.WallTime % 2 ^ 64).toNat = t2.WallTime.toNat := by omega
  have f1 : (t1.Logical % 2 ^ 32).toNat = t1.Logical.toNat := by omega
  have f2 : (t2.Logical % 2 ^ 32).toNat = t2.Logical.toNat := by omega
  rw [e1, e2, f1, f2, bytesCompare_append _ _ _ _ (by simp [bigEndianBytes_length])]
  rcases hlt with hw | ⟨hw, hl⟩
  · have hlt8 : t2.WallTime.toNat < t1.WallTime.toNat := by omega
    have hb8 : t1.WallTime.toNat < 256 ^ 8 := by
      have : (256 : Nat) ^ 8 = 2 ^ 64 := by norm_num
      omega
    rw [bigEndianBytes_lt 8 _ _ hlt8 hb8]
    simp
  · rw [hw, bytesCompare_self]
    have hl1 : t1.Logical ≠ 0 := by omega
    simp only [ne_eq, not_true_eq_false, if_false, hl1, not_false_eq_true, if_true]
    by_cases hl2 : t2.Logical = 0
    · simp only [hl2, not_true_eq_false, if_false]
      exact bytesCompare_nil_left _ (by simp [bigEndianBytes_length])
    · simp only [hl2, not_false_eq_true, if_true]
      have hlt4 : t2.Logical.toNat < t1.Logical.toNat := by omega
      have hb4 : t1.Logical.toNat < 256 ^ 4 := by
        have : (256 : Nat) ^ 4 = 2 ^ 32 := by norm_num
        omega
      exact bigEndianBytes_lt 4 _ _ hlt4 hb4

/-- C3 (amended): in the MVCC layout, for a user key K and two timestamps t1 > t2
whose wall and logical times are not negative, t2 not the zero timestamp (which
is written as no timestamp), `Compare` puts the encoded key of the more recent
t1 strictly before that of t2. -/
theorem Compare_newer_first (verify : Bytes → Bytes → Option Error) (K : Bytes)
    (t1 t2 : Timestamp) (h1 : t1.nonNegative) (h2 : t2.nonNegative)
    (hz : t2 ≠ Timestamp.zero) (hlt : t2.Less t1) :
    Compare (mvccEnv verify) ((mvccEnv verify).EncodeKey { Key := K, Timestamp := t1 })
      ((mvccEnv verify).EncodeKey { Key := K, Timestamp := t2 }) < 0 := by
  have hz1 : t1 ≠ Timestamp.zero := by
    intro h
    rw [h] at hlt
    obtain ⟨h2a, _, h2c, _⟩ := h2
    rcases hlt with hw | ⟨hw, hl⟩
    · simp only [Timestamp.zero] at hw
      omega
    · simp only [Timestamp.zero] at hw hl
      omega
  have hs1 := mvccSplit_encode K t1 hz1
  have hs2 := mvccSplit_encode K t2 hz
  have hcmp := mvcc_timestamp_bytes_lt t1 t2 h1 h2 hlt
  rw [Compare_of_split (mvccEnv verify) ((mvccEnv verify).EncodeKey { Key := K, Timestamp := t1 })
    ((mvccEnv verify).EncodeKey { Key := K, Timestamp := t2 }) K _ K _ hs1 hs2,
    bytesCompare_self K]
  have hl1 : (bigEndianBytes 8 (t1.WallTime % 2 ^ 64).toNat ++
      (if t1.Logical ≠ 0 then bigEndianBytes 4 (t1.Logical % 2 ^ 32).toNat else [])).length
      ≠ 0 := by
    simp [bigEndianBytes_length]
  have hl2 : (bigEndianBytes 8 (t2.WallTime % 2 ^ 64).toNat ++
      (if t2.Logical ≠ 0 then bigEndianBytes 4 (t2.Logical % 2 ^ 32).toNat else [])).length
      ≠ 0 := by
    simp [bigEndianBytes_length]
  simp only [ne_eq, not_true_eq_false, if_false, hl1, hl2, hcmp]
  decide

/-- C3 (witness): user key A, wall times 5 and 3. -/
theorem Compare_newer_first_witness :
    Compare env0 (env0.EncodeKey (keyAt 65 5)) (env0.EncodeKey (keyAt 65 3)) < 0 :=
  Compare_newer_first verifyNone [65] { WallTime := 5, Logical := 0 }
    { WallTime := 3, Logical := 0 } ⟨by decide, by decide, by decide, by decide⟩
    ⟨by decide, by decide, by decide, by decide⟩ (by decide) (Or.inl (by decide))

/-- C3 (counterexample): in the MVCC layout, wall time 5 is more recent than the
zero timestamp and wall time 1 than wall time -1, and 5 with logical time 0 than 5
with logical time -1, yet in each pair `Compare` puts the encoded key of the more
recent one after the other (result 1). -/
theorem Compare_newer_not_first :
    (Timestamp.Less { WallTime := 0, Logical := 0 } { WallTime := 5, Logical := 0 } ∧
      Compare env0 (env0.EncodeKey (keyAt 65 5)) (env0.EncodeKey (keyAt 65 0)) = 1) ∧
    (Timestamp.Less { WallTime := -1, Logical := 0 } { WallTime := 1, Logical := 0 } ∧
      Compare env0 (env0.EncodeKey (keyAt 65 1)) (env0.EncodeKey (keyAt 65 (-1))) = 1) ∧
    (Timestamp.Less { WallTime := 5, Logical := -1 } { WallTime := 5, Logical := 0 } ∧
      Compare env0 (env0.EncodeKey (keyAt 65 5))
        (env0.EncodeKey { Key := [65], Timestamp := { WallTime := 5, Logical := -1 } }) = 1) :=
  ⟨⟨Or.inl (by decide), by decide⟩, ⟨Or.inl (by decide), by decide⟩,
    ⟨Or.inr ⟨by decide, by decide⟩, by decide⟩⟩

/-! ## The decoded key after a failed decode step (C29) -/

theorem keyBufferAfter_take (old new : Bytes) (n : Nat) :
    (keyBufferAfter old new).take n = (new ++ (old.take n).drop new.length).take n := by
  simp only [keyBufferAfter, List.take_append_eq_append_take, List.drop_take, List.take_take,
    Nat.min_self]

theorem overwritten_length (old new : Bytes) :
    ((new ++ old.drop new.length).take old.length).length = old.length := by
  simp only [List.length_take, List.length_append, List.length_drop]
  omega

theorem UnsafeKeyAfterNext_on_entry (env : Env) (how : KeyBuffer) (s : sstIterator)
    (it : Cursor) (e : Bytes × Bytes) (tl : List (Bytes × Bytes)) (hit : s.iter = some it)
    (hrest : it.rest = e :: tl) :
    s.UnsafeKeyAfterNext env how = some
      (if e.1.length < 8 ∨
          littleEndianUint64 (e.1.drop (e.1.length - 8)) % 256 ≠ env.BatchTypeValue then
         (match how with
          | KeyBuffer.rewritten =>
            { Key := (keyBufferAfter it.Key e.1).take s.mvccKey.Key.length
              Timestamp := s.mvccKey.Timestamp }
          | KeyBuffer.replaced => s.mvccKey)
       else match env.DecodeKey (e.1.take (e.1.length - 8)) with
         | Except.ok (k, ts) => { Key := k, Timestamp := ts }
         | Except.error _ =>
           (match how with
            | KeyBuffer.rewritten =>
              { Key := (keyBufferAfter it.Key e.1).take s.mvccKey.Key.length
                Timestamp := s.mvccKey.Timestamp }
            | KeyBuffer.replaced => s.mvccKey)) := by
  by_cases hshort : e.1.length < 8
  · simp [sstIterator.UnsafeKeyAfterNext, hit, Cursor.Next, hrest, Cursor.Key, hshort]
  · by_cases htag : littleEndianUint64 (e.1.drop (e.1.length - 8)) % 256 = env.BatchTypeValue
    · cases hdec : env.DecodeKey (e.1.take (e.1.length - 8)) with
      | error cause =>
        simp [sstIterator.UnsafeKeyAfterNext, hit, Cursor.Next, hrest, Cursor.Key, hshort,
          htag, hdec]
      | ok p =>
        obtain ⟨k, ts⟩ := p
        simp [sstIterator.UnsafeKeyAfterNext, hit, Cursor.Next, hrest, Cursor.Key, hshort,
          htag, hdec]
    · simp [sstIterator.UnsafeKeyAfterNext, hit, Cursor.Next, hrest, Cursor.Key, hshort, htag]

/-- C29 (counterexample): on A at 3, decoded, the user key being the first byte
of the cursor's key buffer, `Next` meets the 3-byte raw key 01 02 03 and fails on
the short trailer, the field `mvccKey` not assigned; the cursor having written
that raw key into its buffer, `UnsafeKey` shows the user key 01, not A. -/
theorem failed_decode_shows_new_bytes :
    stateOnA3ThenShort.UnsafeKey = keyAt 65 3 ∧
    stateOnA3ThenShort.UnsafeKey.Key = ([65] : Bytes) ∧
    (∃ a, stateOnA3ThenShort.Next env0 = some a ∧
      a.Valid = (false, some (Error.invalidInternalKey [1, 2, 3])) ∧
      a.mvccKey = stateOnA3ThenShort.mvccKey) ∧
    stateOnA3ThenShort.UnsafeKeyAfterNext env0 KeyBuffer.rewritten =
      some { Key := [1], Timestamp := { WallTime := 3, Logical := 0 } } ∧
    stateOnA3ThenShort.UnsafeKeyAfterNext env0 KeyBuffer.rewritten ≠
      some stateOnA3ThenShort.UnsafeKey := by
  refine ⟨by decide, by decide, ⟨_, rfl, by decide, by decide⟩, by decide, by decide⟩

/-- C29 (amended): when `Next` fails on an entry by a short trailer, an
unsupported tag or an undecodable key, it does not assign the field `mvccKey`,
which keeps its timestamp and its user-key slice.  That slice being the view of
the first bytes of the cursor's key buffer, `UnsafeKey` after the call is the key
of the last decoded entry when the cursor left the buffer alone, and when the
cursor wrote the offending raw key into the buffer it shows, at the same length,
the leading bytes of that raw key followed by the old bytes beyond it.  When
`Next` fails by the payload check, `UnsafeKey` is the decoded key of the offending
entry either way.  Whenever `Next` leaves the field different from what it was,
the key decode of the entry has succeeded and the field is its result. -/
theorem failed_decode_key_view (env : Env) (s : sstIterator) (it : Cursor)
    (e : Bytes × Bytes) (tl : List (Bytes × Bytes)) (hit : s.iter = some it)
    (hrest : it.rest = e :: tl)
    (hview : s.mvccKey.Key = it.Key.take s.mvccKey.Key.length) :
    (∀ err, env.failsWith false e err →
      (∃ a, s.Next env = some a ∧ a.Valid = (false, some err) ∧ a.mvccKey = s.mvccKey) ∧
      s.UnsafeKeyAfterNext env KeyBuffer.replaced = some s.UnsafeKey ∧
      s.UnsafeKeyAfterNext env KeyBuffer.rewritten = some
        { Key := (e.1 ++ s.UnsafeKey.Key.drop e.1.length).take s.UnsafeKey.Key.length
          Timestamp := s.UnsafeKey.Timestamp } ∧
      ((e.1 ++ s.UnsafeKey.Key.drop e.1.length).take s.UnsafeKey.Key.length).length =
        s.UnsafeKey.Key.length) ∧
    (∀ k ev how, s.verify = true → env.decodesTo false e k → env.Verify e.2 k.Key = some ev →
      (∃ a, s.Next env = some a ∧ a.Valid = (false, some ev) ∧ a.mvccKey = k) ∧
      s.UnsafeKeyAfterNext env how = some k) ∧
    (∀ a, s.Next env = some a → a.mvccKey ≠ s.mvccKey →
      8 ≤ e.1.length ∧
      littleEndianUint64 (e.1.drop (e.1.length - 8)) % 256 = env.BatchTypeValue ∧
      env.DecodeKey (e.1.take (e.1.length - 8)) =
        Except.ok (a.mvccKey.Key, a.mvccKey.Timestamp)) := by
  have hN := Next_on_entry env s it e tl hit hrest
  have hR := UnsafeKeyAfterNext_on_entry env KeyBuffer.replaced s it e tl hit hrest
  have hW := UnsafeKeyAfterNext_on_entry env KeyBuffer.rewritten s it e tl hit hrest
  have hbuf : (keyBufferAfter it.Key e.1).take s.mvccKey.Key.length =
      (e.1 ++ s.mvccKey.Key.drop e.1.length).take s.mvccKey.Key.length := by
    rw [keyBufferAfter_take, ← hview]
  rw [hbuf] at hW
  refine ⟨?_, ?_, ?_⟩
  · intro err hfail
    refine ⟨?_, ?_, ?_, overwritten_length s.mvccKey.Key e.1⟩
    · rcases hfail with ⟨hshort, rfl⟩ | ⟨hlen, htag, rfl⟩ | ⟨hlen, htag, cause, hdec, rfl⟩ |
        ⟨hver, _⟩
      · exact ⟨_, hN, by simp [hshort, sstIterator.failedOn, sstIterator.Valid]⟩
      · have hs : ¬ e.1.length < 8 := by omega
        exact ⟨_, hN, by simp [hs, htag, sstIterator.failedOn, sstIterator.Valid]⟩
      · have hs : ¬ e.1.length < 8 := by omega
        exact ⟨_, hN, by simp [hs, htag, hdec, sstIterator.failedOn, sstIterator.Valid]⟩
      · cases hver
    · rw [hR]
      rcases hfail with ⟨hshort, rfl⟩ | ⟨hlen, htag, rfl⟩ | ⟨hlen, htag, cause, hdec, rfl⟩ |
        ⟨hver, _⟩
      · simp [hshort, sstIterator.UnsafeKey]
      · simp [htag, sstIterator.UnsafeKey]
      · have hs : ¬ e.1.length < 8 := by omega
        simp [hs, htag, hdec, sstIterator.UnsafeKey]
      · cases hver
    · rw [hW]
      rcases hfail with ⟨hshort, rfl⟩ | ⟨hlen, htag, rfl⟩ | ⟨hlen, htag, cause, hdec, rfl⟩ |
        ⟨hver, _⟩
      · simp [hshort, sstIterator.UnsafeKey]
      · simp [htag, sstIterator.UnsafeKey]
      · have hs : ¬ e.1.length < 8 := by omega
        simp [hs, htag, hdec, sstIterator.UnsafeKey]
      · cases hver
  · intro k ev how hver hk hbad
    refine ⟨⟨_, Next_verify_fails env s it e tl k ev hit hrest hver hk hbad, ?_, ?_⟩, ?_⟩
    · simp [sstIterator.Valid, sstIterator.onEntry]
    · simp [sstIterator.onEntry]
    · obtain ⟨hlen, htag, hdec, _⟩ := hk
      have hs : ¬ e.1.length < 8 := by omega
      rw [UnsafeKeyAfterNext_on_entry env how s it e tl hit hrest]
      simp [hs, htag, hdec]
  · intro a ha hne
    rw [hN] at ha
    by_cases hshort : e.1.length < 8
    · simp only [hshort, if_true, Option.some.injEq] at ha
      subst ha
      exact absurd rfl hne
    · by_cases htag : littleEndianUint64 (e.1.drop (e.1.length - 8)) % 256 = env.BatchTypeValue
      · cases hdec : env.DecodeKey (e.1.take (e.1.length - 8)) with
        | error cause =>
          simp only [hshort, htag, hdec, if_false, ne_eq, not_true_eq_false,
            Option.some.injEq] at ha
          subst ha
          exact absurd rfl hne
        | ok p =>
          obtain ⟨k, ts⟩ := p
          simp only [hshort, htag, hdec, if_false, ne_eq, not_true_eq_false,
            Option.some.injEq] at ha
          subst ha
          exact ⟨by omega, htag, rfl⟩
      · simp only [hshort, htag, if_false, ne_eq, not_false_eq_true, if_true,
          Option.some.injEq] at ha
        subst ha
        exact absurd rfl hne

/-- C29 (witness): on A at 3, decoded, the user key being the first byte of the
cursor's key, `Next` meets the 3-byte raw key 01 02 03: `Valid` returns the
short-key error, the field is not assigned, and `UnsafeKey` is A at 3 when the
cursor left its buffer alone and 01 at 3 when it wrote the raw key into it. -/
theorem failed_decode_key_view_witness :
    stateOnA3ThenShort.mvccKey.Key =
      (Cursor.Key { rest := [([1, 2, 3], [])], cur := some (entryOf (keyAt 65 3) [3]),
                    closeErr := none }).take stateOnA3ThenShort.mvccKey.Key.length ∧
    (∃ a, stateOnA3ThenShort.Next env0 = some a ∧
      a.Valid = (false, some (Error.invalidInternalKey [1, 2, 3])) ∧
      a.mvccKey = stateOnA3ThenShort.mvccKey) ∧
    stateOnA3ThenShort.UnsafeKeyAfterNext env0 KeyBuffer.replaced =
      some stateOnA3ThenShort.UnsafeKey ∧
    stateOnA3ThenShort.UnsafeKeyAfterNext env0 KeyBuffer.rewritten = some
      { Key := (([1, 2, 3] : Bytes) ++
          stateOnA3ThenShort.UnsafeKey.Key.drop ([1, 2, 3] : Bytes).length).take
            stateOnA3ThenShort.UnsafeKey.Key.length
        Timestamp := stateOnA3ThenShort.UnsafeKey.Timestamp } ∧
    ((([1, 2, 3] : Bytes) ++
        stateOnA3ThenShort.UnsafeKey.Key.drop ([1, 2, 3] : Bytes).length).take
          stateOnA3ThenShort.UnsafeKey.Key.length).length =
      stateOnA3ThenShort.UnsafeKey.Key.length :=
  ⟨by decide,
    (failed_decode_key_view env0 stateOnA3ThenShort
      { rest := [([1, 2, 3], [])], cur := some (entryOf (keyAt 65 3) [3]), closeErr := none }
      ([1, 2, 3], []) [] (by decide) (by decide) (by decide)).1
      (Error.invalidInternalKey [1, 2, 3]) (Or.inl ⟨by decide, rfl⟩)⟩

end engine
